import Mathlib

/-!
Verification model of `src/experiment/tools/deap/profile.py`, the constrained
random program (expression tree) generator and its size-stratified sampler.

Conventions of the shallow embedding:

* Python integers are `Nat`/`Int`; the single CPython float division in
  `get_max_size` is modelled exactly by rounding the (always integral) true
  quotient to the nearest IEEE-754 double (`roundToDouble`), for magnitudes
  below the double overflow threshold (CPython raises `OverflowError` beyond).
* The module-level `random` stream is modelled as an infinite stream
  `Nat → Nat` of raw draws together with a running index; `random.randint`
  and `random.choice` interpret a draw by reduction modulo the range size,
  and `random.random() < primitive_set.terminalRatio` (DEAP's
  `terminalRatio` is `terms/(terms+prims)`) is modelled as the Bernoulli
  test `draw % (terms+prims) < terms`.  Each Python draw consumes exactly
  one stream position, in program order.
* The program is single-typed (one return type), so the per-return-type
  dictionaries `primitive_set.terminals[ret_type]` / `primitives[ret_type]`
  are embedded as plain lists; DEAP's `addPrimitive` asserts `arity > 0`,
  which is carried as a field of `PSet`.
* Python exceptions that the generator can raise (`random.randint` on an
  empty range, `random.choice` on an empty sequence, the ephemeral-constant
  draw on an empty constant pool) are the `exn` result.
* The unbounded `while` loop of `generate_program_` is run on explicit fuel
  `max max_size 1 + 1`; the fuel is proved sufficient below, so the fuelled
  function coincides with the Python loop.
-/

namespace GPProfile

/-- Terminal symbol of the alphabet: a variable, or the ephemeral-constant
generator (whose materialization draws an index into a fixed constant pool of
size `poolSize`, consuming one random draw). -/
structure Terminal where
  name : String
  isEphemeral : Bool
  poolSize : Nat
deriving DecidableEq

/-- Function (DEAP `Primitive`) symbol: a name and a fixed arity. -/
structure Primitive where
  name : String
  arity : Nat
deriving DecidableEq

/-- One node of a generated program: a materialized terminal (with the drawn
constant-pool index when ephemeral) or a function symbol. -/
inductive Node where
  | term (t : Terminal) (constIdx : Option Nat)
  | prim (f : Primitive)
deriving DecidableEq

/-- Arity of a program node (terminals are leaves). -/
def Node.arity : Node → Nat
  | .term _ _ => 0
  | .prim f => f.arity

/-- The alphabet (DEAP `PrimitiveSet`) restricted to its single return type:
terminals, functions, and the invariant `arity > 0` that DEAP's
`addPrimitive` asserts at construction time. -/
structure PSet where
  terminals : List Terminal
  primitives : List Primitive
  arity_pos : ∀ f ∈ primitives, 0 < f.arity

/-- The `desired_trait` argument: `'depth'` or `'size'`. -/
inductive Trait where
  | depth
  | size
deriving DecidableEq

/-! ### `get_max_size` and the IEEE-754 rounding model -/

/-- Fuelled floor-of-log2 (structural recursion so that closed instances
reduce in the kernel). -/
def floorLog2Aux : Nat → Nat → Nat
  | 0, _ => 0
  | fuel + 1, n => if n ≤ 1 then 0 else floorLog2Aux fuel (n / 2) + 1

/-- Floor of the base-2 logarithm (`0` at `0`). -/
def floorLog2 (n : Nat) : Nat := floorLog2Aux n n

/-- Round a natural number to the nearest IEEE-754 double (round half to
even), for magnitudes below the double overflow threshold.  Integers below
`2^53` are exact; above, the doubles in `[2^L, 2^(L+1))` are exactly the
multiples of `2^(L-52)`. -/
def roundToDouble (n : Nat) : Nat :=
  if n < 2 ^ 53 then n
  else
    let e := floorLog2 n - 52
    let q := n / 2 ^ e
    let r := n % 2 ^ e
    if r < 2 ^ (e - 1) ∨ (r = 2 ^ (e - 1) ∧ q % 2 = 0) then q * 2 ^ e
    else (q + 1) * 2 ^ e

/-- Model of `get_max_size(m, d)` (profile.py lines 25–31): the maximum
possible size of an `m`-ary program of depth `d`.  For `m == 1` it is
`d + 1`; otherwise the source computes `int((1-m**(d+1))/(1-m))` with CPython
float true-division.  For `d ≥ 0` the exact quotient is the integer
`(m^(d+1)-1)/(m-1)` and the float division returns it rounded to the nearest
double; for `d < 0` (reachable only through the `max_depth - d` call sites
on over-deep stack entries) the float value lies in `(-1, 0]` and `int()`
truncates it to `0`. -/
def get_max_size (m : Nat) (d : Int) : Int :=
  if m = 1 then d + 1
  else if d < 0 then 0
  else (roundToDouble ((m ^ (d.toNat + 1) - 1) / (m - 1)) : Nat)

/-- Node count of a complete (fully saturated) `m`-ary tree of depth `d`,
written from the spec's words (`Σ_{i=0}^{d} m^i`); the exact-arithmetic
comparison point for `get_max_size`. -/
def spec_complete_tree_node_count (m d : Nat) : Nat :=
  ((List.range (d + 1)).map (fun i => m ^ i)).sum

/-! ### Flat-scan semantics of a program list

DEAP renders a generated program as a flat list of nodes in prefix
(depth-first, left-to-right) order.  `PrimitiveTree.height` recomputes the
depth of such a list by the stack scan embedded here as `scanH`: the scan
stack holds the depths of the not-yet-filled argument slots, and each node
consumes the top slot and pushes one slot per argument. -/

/-- Stack scan over a program list: `scanH p ds m` consumes `p` against the
pending-slot depth stack `ds` (top at head), tracking the maximum consumed
depth starting from `m`.  Returns `none` when a node arrives with no pending
slot (Python would raise there). -/
def scanH : List Node → List Nat → Nat → Option (List Nat × Nat)
  | [], ds, m => some (ds, m)
  | _ :: _, [], _ => none
  | n :: rest, d :: ds, m => scanH rest (List.replicate n.arity (d + 1) ++ ds) (max m d)

/-- Model of DEAP `PrimitiveTree.height`: the maximum node depth produced by
the stack scan from a single root slot.  (The `none` case is unreachable for
complete programs; Python raises there.) -/
def heightScan (p : List Node) : Nat :=
  match scanH p [0] 0 with
  | some (_, m) => m
  | none => 0

/-! ### Structural trees -/

/-- A structural expression tree: a symbol with an ordered list of child
subtrees. -/
inductive Tree where
  | mk (sym : Node) (children : List Tree)

/-- Well-formedness: every node has exactly `arity` children. -/
inductive Tree.WF : Tree → Prop where
  | mk : ∀ (s : Node) (ch : List Tree), ch.length = s.arity →
      (∀ t ∈ ch, Tree.WF t) → Tree.WF (Tree.mk s ch)

mutual

/-- Size (node count, root inclusive) of a structural tree. -/
def Tree.sizeT : Tree → Nat
  | .mk _ ch => 1 + Tree.sizeLT ch

/-- Total size of a forest. -/
def Tree.sizeLT : List Tree → Nat
  | [] => 0
  | t :: ts => Tree.sizeT t + Tree.sizeLT ts

end

mutual

/-- Depth (longest root-to-leaf edge count) of a structural tree. -/
def Tree.depthT : Tree → Nat
  | .mk _ ch =>
    match ch with
    | [] => 0
    | _ :: _ => 1 + Tree.depthLT ch

/-- Maximum depth over a forest. -/
def Tree.depthLT : List Tree → Nat
  | [] => 0
  | t :: ts => max (Tree.depthT t) (Tree.depthLT ts)

end

mutual

/-- Prefix (depth-first, left-to-right) linearization of a tree, the order
in which `generate_program_` appends nodes to `program`. -/
def Tree.lin : Tree → List Node
  | .mk s ch => s :: Tree.linL ch

/-- Linearization of a forest. -/
def Tree.linL : List Tree → List Node
  | [] => []
  | t :: ts => Tree.lin t ++ Tree.linL ts

end

/-- Offset forest depth: the contribution `max_i (dd + depthT tᵢ)` a forest
makes to the running maximum of `scanH`, `0` for the empty forest. -/
def dplus (dd : Nat) : List Tree → Nat
  | [] => 0
  | t :: ts => max (dd + Tree.depthT t) (dplus dd ts)

/-! ### The constrained generator `generate_program_` / `generate_grow` -/

/-- Generation context: the arguments of `generate_program_` that stay fixed
during the construction loop, plus the random stream. -/
structure GenCtx where
  pset : PSet
  min_depth : Nat
  max_depth : Nat
  min_size : Nat
  max_size : Nat
  desired_trait : Trait
  stream : Nat → Nat

/-- Mutable state of the construction loop: the program list built so far,
the obligation stack (top at head; each entry is `(depth, size)` as in the
source), and the index of the next unconsumed random draw. -/
structure GenState where
  program : List Node
  stack : List (Nat × Nat)
  idx : Nat
deriving DecidableEq

/-- Result of one run of the generator: a completed program, the `None`
infeasibility signal, a Python exception, or the (provably unreachable)
fuel-exhaustion marker of the embedding. -/
inductive GenResult where
  | ok (p : List Node)
  | infeasible
  | exn
  | outOfFuel
deriving DecidableEq

/-- Model of `random.randint(lo, hi)` at stream position `i`: one draw
reduced into `[lo, hi]`, or `none` for the `ValueError` on an empty range
(raised before any draw is consumed). -/
def randint (lo hi : Nat) (stream : Nat → Nat) (i : Nat) : Option (Nat × Nat) :=
  if lo ≤ hi then some (lo + stream i % (hi - lo + 1), i + 1) else none

/-- Bernoulli model of `random.random() < primitive_set.terminalRatio`:
DEAP's `terminalRatio` is `terms/(terms + prims)`, and a uniform draw
reduced modulo `terms + prims` is below `terms` with exactly that
probability. -/
def coinFlip (pset : PSet) (draw : Nat) : Bool :=
  draw % (pset.terminals.length + pset.primitives.length) < pset.terminals.length

/-- Remaining-budget sum over the obligation stack (profile.py lines 157–158
and 214–215): `Σ (get_max_size(m, max_depth - d) - 1)` over the pending
obligations' depths. -/
def stackBudget (m : Nat) (max_depth : Nat) (stack : List (Nat × Nat)) : Int :=
  (stack.map (fun e => get_max_size m ((max_depth : Int) - (e.1 : Int)) - 1)).sum

/-- Type of the `terminal_condition` callback of `generate_program_`: given
the context, `desired_value`, the stack (after the current obligation was
popped), the popped `depth` and `size`, and the next draw index, decide
whether the node is a terminal, returning the new draw index (the decision
may consume one draw). -/
def TCond : Type :=
  GenCtx → Nat → List (Nat × Nat) → Nat → Nat → Nat → Bool × Nat

/-- Model of the `terminal_condition` closure of `generate_grow` (profile.py
lines 186–232), with Python's left-to-right short-circuit evaluation: the
`random.random()` draw is consumed only when every earlier test falls
through to it. -/
def terminal_condition : TCond := fun c dv stack depth size idx =>
  let valid_terminals := c.pset.terminals
  let valid_functions := c.pset.primitives.filter (fun f => size + f.arity ≤ c.max_size)
  let max_arity := if valid_functions = [] then 1
    else (valid_functions.map Primitive.arity).foldr max 0
  let max_possible_size : Int :=
    if stack = [] then (size : Int)
    else (size : Int) + stackBudget max_arity c.max_depth stack
  if valid_terminals = [] then (false, idx)
  else if valid_functions = [] ∨ depth = c.max_depth ∨ size = c.max_size
      ∨ (c.desired_trait = Trait.depth ∧ depth = dv)
      ∨ (c.desired_trait = Trait.size ∧ dv ≤ size) then (true, idx)
  else if c.min_depth ≤ depth ∧ c.min_size ≤ size ∧
      (c.desired_trait = Trait.depth ∨
        (c.desired_trait = Trait.size ∧ (dv : Int) ≤ max_possible_size)) then
    (coinFlip c.pset (c.stream idx), idx + 1)
  else (false, idx)

/-- The `'size'`-trait refinement of the valid-function set (profile.py
lines 127–163): keep a function `f` only when, with every pending obligation
maximally expanded, a program of the desired total size is still possible. -/
def sizeFilter (c : GenCtx) (dv : Nat) (stack : List (Nat × Nat))
    (depth size : Nat) (vf : List Primitive) : List Primitive :=
  let max_arity := (vf.map Primitive.arity).foldr max 0
  vf.filter (fun f =>
    let mps : Int := (f.arity : Int) * get_max_size max_arity ((c.max_depth : Int) - ((depth : Int) + 1))
    let mps2 : Int := if stack = [] then (size : Int) + mps
      else (size : Int) + mps + stackBudget max_arity c.max_depth stack
    (dv : Int) ≤ mps2)

/-- The size carry-forward of profile.py lines 113–115: after a terminal is
resolved at running size `size`, the next obligation (if any) is re-pushed
with its size field replaced by `size`. -/
def carryStack (size : Nat) : List (Nat × Nat) → List (Nat × Nat)
  | [] => []
  | (d2, _) :: r => (d2, size) :: r

/-- Outcome of one iteration of the construction loop. -/
inductive StepOut where
  | cont (st : GenState)
  | done (p : List Node) (i : Nat)
  | fail (i : Nat)
  | err (i : Nat)
deriving DecidableEq

/-- Terminal branch of the loop body (profile.py lines 96–115):
`random.choice` over the terminals (raising on an empty list), ephemeral
materialization (one further draw into the constant pool, raising when the
pool is empty), append, and the size carry-forward. -/
def termStep (c : GenCtx) (rest : List (Nat × Nat)) (prog : List Node)
    (size : Nat) (i1 : Nat) : StepOut :=
  let ts := c.pset.terminals
  if ts = [] then .err i1
  else
    let t := ts.getD (c.stream i1 % ts.length) ⟨"", false, 0⟩
    if t.isEphemeral then
      if t.poolSize = 0 then .err (i1 + 1)
      else .cont ⟨prog ++ [Node.term t (some (c.stream (i1 + 1) % t.poolSize))],
        carryStack size rest, i1 + 2⟩
    else .cont ⟨prog ++ [Node.term t none], carryStack size rest, i1 + 1⟩

/-- Function branch of the loop body (profile.py lines 117–179): the arity
feasibility filter, the `'size'`-trait refinement, failure (`return None`)
when no function survives, otherwise `random.choice` and one pushed
obligation `(depth+1, size+arity)` per argument slot. -/
def funcStep (c : GenCtx) (dv : Nat) (rest : List (Nat × Nat)) (prog : List Node)
    (depth size : Nat) (i1 : Nat) : StepOut :=
  let vf := c.pset.primitives.filter (fun f => size + f.arity ≤ c.max_size)
  let vf2 := if vf ≠ [] ∧ c.desired_trait = Trait.size
    then sizeFilter c dv rest depth size vf else vf
  match vf2 with
  | [] => .fail i1
  | g :: gs =>
    let f := (g :: gs).getD (c.stream i1 % (g :: gs).length) ⟨"", 0⟩
    .cont ⟨prog ++ [Node.prim f],
      List.replicate f.arity (depth + 1, size + f.arity) ++ rest, i1 + 1⟩

/-- One iteration of the `while` loop of `generate_program_` (profile.py
lines 82–179): pop the next obligation, consult `terminal_condition`, and
take the terminal or the function branch; `done` when the stack is empty. -/
def stepG (c : GenCtx) (tc : TCond) (dv : Nat) (st : GenState) : StepOut :=
  match st.stack with
  | [] => .done st.program st.idx
  | (depth, size) :: rest =>
    let p := tc c dv rest depth size st.idx
    if p.1 then termStep c rest st.program size p.2
    else funcStep c dv rest st.program depth size p.2

/-- Fuelled run of the construction loop; the fuel bound used by
`generate_program_` is proved sufficient below, making `outOfFuel`
unreachable. -/
def genLoop (c : GenCtx) (tc : TCond) (dv : Nat) : Nat → GenState → GenResult × Nat
  | fuel, st =>
    match stepG c tc dv st with
    | .done p i => (.ok p, i)
    | .fail i => (.infeasible, i)
    | .err i => (.exn, i)
    | .cont st' =>
      match fuel with
      | 0 => (.outOfFuel, st'.idx)
      | fuel' + 1 => genLoop c tc dv fuel' st'

/-- Model of `generate_program_` (profile.py lines 62–181): draw
`desired_value` (`randint` over the depth or size range according to
`desired_trait`), then run the construction loop from the initial stack
`[(0, 1)]`.  Returns the result together with the index of the first
unconsumed draw.  The single return type makes the `ret_type` argument
constant; it is omitted. -/
def generate_program_ (pset : PSet) (min_depth max_depth min_size max_size : Nat)
    (desired_trait : Trait) (tc : TCond) (stream : Nat → Nat) : GenResult × Nat :=
  let c : GenCtx := ⟨pset, min_depth, max_depth, min_size, max_size, desired_trait, stream⟩
  let r := match desired_trait with
    | Trait.depth => randint min_depth max_depth stream 0
    | Trait.size => randint min_size max_size stream 0
  match r with
  | none => (.exn, 0)
  | some (dv, i1) => genLoop c tc dv (max max_size 1 + 1) ⟨[], [(0, 1)], i1⟩

/-- Model of `generate_grow` (profile.py lines 183–235): `generate_program_`
with the grow-strategy `terminal_condition`. -/
def generate_grow (pset : PSet) (min_depth max_depth min_size max_size : Nat)
    (desired_trait : Trait) (stream : Nat → Nat) : GenResult × Nat :=
  generate_program_ pset min_depth max_depth min_size max_size desired_trait
    terminal_condition stream

/-- Step-indexed reachability of loop states: `stepsG c tc dv n st` is the
state after `n` continuing iterations from `st`, `none` once the loop has
exited. -/
def stepsG (c : GenCtx) (tc : TCond) (dv : Nat) : Nat → GenState → Option GenState
  | 0, st => some st
  | n + 1, st =>
    match stepG c tc dv st with
    | .cont st' => stepsG c tc dv n st'
    | _ => none

/-! ### Loop invariants (definitions) -/

/-- Size-bookkeeping invariant: whenever the stack is non-empty, the size
field of its top obligation equals the number of nodes already appended
plus the number of pending obligations (the top included). -/
def invJ (st : GenState) : Prop :=
  ∀ d s r, st.stack = (d, s) :: r → s = st.program.length + st.stack.length

/-- Budget invariant: appended nodes plus pending obligations never exceed
`max max_size 1`. -/
def invL (c : GenCtx) (st : GenState) : Prop :=
  st.program.length + st.stack.length ≤ max c.max_size 1

/-- Scan invariant: the slot scan of the program built so far leaves exactly
the depths of the pending obligations, its running maximum and every pending
depth bounded by `max_depth`. -/
def invS (c : GenCtx) (st : GenState) : Prop :=
  ∃ m, scanH st.program [0] 0 = some (st.stack.map Prod.fst, m) ∧
    m ≤ c.max_depth ∧ ∀ e ∈ st.stack, e.1 ≤ c.max_depth

/-! ### The stratified sampler (profile.py lines 362–525) -/

/-- Per-bin configuration of the module-level sampling loop: the target
count `num_programs_per_size_bin` (`K`), the depth/size caps checked at
line 463, and the name tables used for the usage tallies. -/
structure BinCfg where
  K : Nat
  max_depth : Nat
  max_size : Nat
  fnames : List String
  vnames : List String
  cnames : List String

/-- State of one size bin: the `program_dict` tuple
`(programs, depths, sizes, function_counts, variable_counts,
constant_counts)` plus the `primitive_trees` list that is appended before
the bound check. -/
structure BinState where
  programs : List String
  depths : List Nat
  sizes : List Nat
  function_counts : List Nat
  variable_counts : List Nat
  constant_counts : List Nat
  trees : List (List Node)
deriving DecidableEq

/-- The empty bin. -/
def initialBin : BinState := ⟨[], [], [], [], [], [], []⟩

/-- What the sampling loop did with one generated result. -/
inductive RecordOutcome where
  | skippedNone
  | boundsWarning
  | accepted
  | rejected
deriving DecidableEq

/-- Label of a node as produced by `gp.graph` (function name, variable
name, or the rendered constant value — here the pooled constant name). -/
def nodeLabel (cnames : List String) : Node → String
  | .term t none => t.name
  | .term t (some i) => cnames.getD i t.name
  | .prim f => f.name

/-- Rendering of one node with already-rendered argument strings, as DEAP's
`Primitive.format` / `Terminal.format` do. -/
def formatNode (cnames : List String) (n : Node) (args : List String) : String :=
  match n with
  | .prim f => f.name ++ "(" ++ String.intercalate ", " args ++ ")"
  | t => nodeLabel cnames t

/-- Fuelled body of the inner `while` of DEAP `PrimitiveTree.__str__`:
repeatedly pop the top of the render stack once its argument list is
complete, formatting it and attaching the string to the new top.  (The fuel
is the stack length, which strictly decreases; structural recursion keeps
closed instances kernel-reducible.) -/
def collapseAux (cnames : List String) :
    Nat → List (Node × List String) → String → List (Node × List String) × String
  | 0, stk, s => (stk, s)
  | fuel + 1, stk, s =>
    match stk with
    | [] => ([], s)
    | (nd, args) :: rest =>
      if args.length = nd.arity then
        let s' := formatNode cnames nd args
        match rest with
        | [] => ([], s')
        | (nd2, args2) :: r2 => collapseAux cnames fuel ((nd2, args2 ++ [s']) :: r2) s'
      else ((nd, args) :: rest, s)

/-- The inner `while` of DEAP `PrimitiveTree.__str__`, run on fuel equal to
the render-stack length (each iteration pops one entry). -/
def collapse (cnames : List String) (stk : List (Node × List String))
    (s : String) : List (Node × List String) × String :=
  collapseAux cnames stk.length stk s

/-- Model of `str(program)` (DEAP `PrimitiveTree.__str__`): the canonical
textual rendering used for dedup and output. -/
def canon (cnames : List String) (p : List Node) : String :=
  (p.foldl (fun acc n => collapse cnames ((n, []) :: acc.1) acc.2) ([], "")).2

/-- Increment entry `i` of a count list. -/
def bump (l : List Nat) (i : Nat) : List Nat := l.set i (l.getD i 0 + 1)

/-- The per-program usage tally of profile.py lines 487–503: one pass over
the node labels, classifying each as function, variable, or constant (in
that precedence) and bumping the matching index. -/
def tally (cfg : BinCfg) (labels : List String) : List Nat × List Nat × List Nat :=
  labels.foldl
    (fun acc lb =>
      if lb ∈ cfg.fnames then (bump acc.1 (cfg.fnames.indexOf lb), acc.2.1, acc.2.2)
      else if lb ∈ cfg.vnames then (acc.1, bump acc.2.1 (cfg.vnames.indexOf lb), acc.2.2)
      else (acc.1, acc.2.1, bump acc.2.2 (cfg.cnames.indexOf lb)))
    (List.replicate cfg.fnames.length 0, List.replicate cfg.vnames.length 0,
      List.replicate cfg.cnames.length 0)

/-- Elementwise sum of two count lists (`[sum(i) for i in zip(a, b)]`). -/
def zipSum (a b : List Nat) : List Nat := (a.zip b).map (fun q => q.1 + q.2)

/-- Model of one pass of the module-level sampling loop body (profile.py
lines 436–525) for a single generated result: skip `None`; append the tree
to `primitive_trees`; recompute size (`gp.graph` node count) and depth
(`PrimitiveTree.height`); print-and-skip when `depth > max_depth or
size > max_size`; otherwise accept into the bin dictionary exactly when the
bin is below its target count and the canonical string is new. -/
def recordProgram (cfg : BinCfg) (bs : BinState) (res : Option (List Node)) :
    BinState × RecordOutcome :=
  match res with
  | none => (bs, .skippedNone)
  | some p =>
    let size := p.length
    let trees2 := bs.trees ++ [p]
    let pstr := canon cfg.cnames p
    let depth := heightScan p
    if cfg.max_depth < depth ∨ cfg.max_size < size then
      ({bs with trees := trees2}, .boundsWarning)
    else if bs.programs.length < cfg.K ∧ bs.programs.count pstr = 0 then
      let cnt := tally cfg (p.map (nodeLabel cfg.cnames))
      ({ programs := bs.programs ++ [pstr]
         depths := bs.depths ++ [depth]
         sizes := bs.sizes ++ [size]
         function_counts := if bs.function_counts = [] then cnt.1
           else zipSum bs.function_counts cnt.1
         variable_counts := if bs.variable_counts = [] then cnt.2.1
           else zipSum bs.variable_counts cnt.2.1
         constant_counts := if bs.constant_counts = [] then cnt.2.2
           else zipSum bs.constant_counts cnt.2.2
         trees := trees2 }, .accepted)
    else ({bs with trees := trees2}, .rejected)

/-- The bin state after feeding a sequence of generated results to the
sampling loop, starting from the empty bin. -/
def runBin (cfg : BinCfg) (results : List (Option (List Node))) : BinState :=
  results.foldl (fun bs r => (recordProgram cfg bs r).1) initialBin

/-! ### Bin geometry (profile.py lines 378–381 and 426–430) -/

/-- `max_possible_size = get_max_size(max_arity, max_depth)`. -/
def max_possible_size (max_arity max_depth : Nat) : Nat :=
  (get_max_size max_arity (max_depth : Int)).toNat

/-- Model of `num_size_bins = int(math.ceil(max_possible_size/bin_size))`:
for quotients whose ceiling is below `2^53` the correctly rounded float
quotient has the same ceiling as the exact rational, so the expression is
embedded as exact ceiling division. -/
def num_size_bins (mps bin_size : Nat) : Nat := (mps + bin_size - 1) / bin_size

/-- Bin lower bound: `min_size = i*bin_size+1`. -/
def bin_min_size (i bin_size : Nat) : Nat := i * bin_size + 1

/-- Bin upper bound: `max_size = max_possible_size if i==num_size_bins-1
else (i+1)*bin_size`. -/
def bin_max_size (i bin_size mps : Nat) : Nat :=
  if i = num_size_bins mps bin_size - 1 then mps else (i + 1) * bin_size

/-! ### Concrete inputs used by witnesses and counterexamples -/

/-- Alphabet with one variable terminal and one binary function. -/
def psetW : PSet :=
  ⟨[⟨"v0", false, 0⟩], [⟨"add", 2⟩], by
    intro f hf
    rw [List.mem_singleton] at hf
    subst hf
    decide⟩

/-- Misconfigured alphabet: no terminal for the return type. -/
def psetNoTermW : PSet :=
  ⟨[], [⟨"sq", 1⟩], by
    intro f hf
    rw [List.mem_singleton] at hf
    subst hf
    decide⟩

/-- Alphabet whose only terminal is an ephemeral constant with an empty
constant pool (`generate_primitive_set` with `num_constants = 0`). -/
def psetEphW : PSet :=
  ⟨[⟨"erc", true, 0⟩], [], by intro f hf; simp at hf⟩

/-- The all-zero random stream. -/
def streamZ : Nat → Nat := fun _ => 0

/-- The all-three random stream. -/
def streamT : Nat → Nat := fun _ => 3

/-- A stream agreeing with `streamZ` on positions below 2 only. -/
def streamZ2 : Nat → Nat := fun j => if j < 2 then 0 else 99

/-- Index of the first stream position not consumed by a step outcome. -/
def nextIdx : StepOut → Nat
  | .cont st => st.idx
  | .done _ i => i
  | .fail i => i
  | .err i => i

/-- The all-one random stream. -/
def streamOne : Nat → Nat := fun _ => 1

/-- Generation context used by the size-bookkeeping witness. -/
def ctxW : GenCtx := ⟨psetW, 0, 3, 1, 7, Trait.depth, streamOne⟩

/-- Bin configuration used by sampler witnesses. -/
def binCfgW : BinCfg := ⟨1, 3, 4, ["add"], ["v0"], []⟩

/-! ## Theorems -/

/-! ### Linearization and scan lemmas -/

theorem Tree.linL_append (a b : List Tree) :
    Tree.linL (a ++ b) = Tree.linL a ++ Tree.linL b := by
  induction a with
  | nil => simp [Tree.linL]
  | cons t ts ih => simp [Tree.linL, ih]

mutual

theorem Tree.lin_length : ∀ t : Tree, (Tree.lin t).length = Tree.sizeT t
  | .mk s ch => by
    simp only [Tree.lin, Tree.sizeT, List.length_cons]
    rw [Tree.linL_length ch]
    omega

theorem Tree.linL_length : ∀ ts : List Tree, (Tree.linL ts).length = Tree.sizeLT ts
  | [] => rfl
  | t :: ts => by
    simp only [Tree.linL, Tree.sizeLT, List.length_append]
    rw [Tree.lin_length t, Tree.linL_length ts]

end

theorem scanH_append (p q : List Node) :
    ∀ ds m, scanH (p ++ q) ds m =
      match scanH p ds m with
      | some (ds', m') => scanH q ds' m'
      | none => none := by
  induction p with
  | nil => intro ds m; rfl
  | cons n rest ih =>
    intro ds m
    cases ds with
    | nil => rfl
    | cons d ds => simpa [scanH] using ih _ _

theorem dplus_cons (dd : Nat) (t : Tree) (ts : List Tree) :
    dplus dd (t :: ts) = max (dd + Tree.depthT t) (dplus dd ts) := rfl

theorem dplus_eq_add_depthLT (dd : Nat) :
    ∀ (t : Tree) (ts : List Tree), dplus dd (t :: ts) = dd + Tree.depthLT (t :: ts) := by
  intro t ts
  induction ts generalizing t with
  | nil => simp [dplus, Tree.depthLT]
  | cons u us ih =>
    have h1 : Tree.depthLT (t :: u :: us) = max (Tree.depthT t) (Tree.depthLT (u :: us)) := rfl
    rw [dplus_cons, ih u, h1]
    omega

mutual

theorem scanH_lin : ∀ (t : Tree), Tree.WF t →
    ∀ (rest : List Node) (ds : List Nat) (m d : Nat),
    scanH (Tree.lin t ++ rest) (d :: ds) m = scanH rest ds (max m (d + Tree.depthT t))
  | .mk s ch => by
    intro hwf rest ds m d
    cases hwf with
    | mk _ _ hlen hch =>
      show scanH ((s :: Tree.linL ch) ++ rest) (d :: ds) m = _
      rw [List.cons_append]
      show scanH (Tree.linL ch ++ rest) (List.replicate s.arity (d + 1) ++ ds) (max m d) = _
      rw [← hlen]
      rw [scanH_linL ch hch rest ds (max m d) (d + 1)]
      congr 1
      cases ch with
      | nil =>
        show max (max m d) (dplus (d + 1) []) = max m (d + Tree.depthT (Tree.mk s []))
        simp [dplus, Tree.depthT]
      | cons c cs =>
        rw [dplus_eq_add_depthLT]
        show max (max m d) (d + 1 + Tree.depthLT (c :: cs)) = _
        have h2 : Tree.depthT (Tree.mk s (c :: cs)) = 1 + Tree.depthLT (c :: cs) := rfl
        rw [h2]
        omega

theorem scanH_linL : ∀ (ch : List Tree), (∀ t ∈ ch, Tree.WF t) →
    ∀ (rest : List Node) (ds : List Nat) (m dd : Nat),
    scanH (Tree.linL ch ++ rest) (List.replicate ch.length dd ++ ds) m =
      scanH rest ds (max m (dplus dd ch))
  | [] => by
    intro _ rest ds m dd
    simp [Tree.linL, dplus]
  | c :: cs => by
    intro hch rest ds m dd
    show scanH ((Tree.lin c ++ Tree.linL cs) ++ rest)
        (dd :: (List.replicate cs.length dd ++ ds)) m = _
    rw [List.append_assoc]
    rw [scanH_lin c (hch c (by simp)) _ _ m dd]
    rw [scanH_linL cs (fun t ht => hch t (by simp [ht])) rest ds _ dd]
    congr 1
    rw [dplus_cons]
    omega

end

/-- Every program list that the slot scan consumes completely (ending with an
empty slot stack) is the linearization of a forest of well-formed trees, one
per initial slot. -/
theorem scanH_complete_forest :
    ∀ (p : List Node) (ds : List Nat) (m out : Nat),
      scanH p ds m = some ([], out) →
      ∃ ts : List Tree, (∀ t ∈ ts, Tree.WF t) ∧ ts.length = ds.length ∧ Tree.linL ts = p := by
  intro p
  induction p with
  | nil =>
    intro ds m out h
    simp only [scanH, Option.some.injEq, Prod.mk.injEq] at h
    refine ⟨[], by simp, ?_, rfl⟩
    rw [h.1]
    rfl
  | cons n rest ih =>
    intro ds m out h
    cases ds with
    | nil => simp [scanH] at h
    | cons d ds =>
      simp only [scanH] at h
      obtain ⟨ts, hwf, hlen, hlin⟩ := ih _ _ _ h
      refine ⟨Tree.mk n (ts.take n.arity) :: ts.drop n.arity, ?_, ?_, ?_⟩
      · intro t ht
        rcases List.mem_cons.mp ht with h1 | h1
        · subst h1
          refine Tree.WF.mk _ _ ?_ ?_
          · rw [List.length_take, hlen]
            simp
          · intro t ht; exact hwf t (List.mem_of_mem_take ht)
        · exact hwf t (List.mem_of_mem_drop h1)
      · simp only [List.length_cons, List.length_drop, hlen]
        simp
      · show (n :: Tree.linL (ts.take n.arity)) ++ Tree.linL (ts.drop n.arity) = n :: rest
        rw [List.cons_append, ← Tree.linL_append, List.take_append_drop, hlin]

/-! ### Step characterization lemmas -/

theorem choiceD_mem {α : Type} (l : List α) (x : α) (k : Nat) (h : l ≠ []) :
    l.getD (k % l.length) x ∈ l := by
  have hl : 0 < l.length := List.length_pos.mpr h
  have hk : k % l.length < l.length := Nat.mod_lt _ hl
  rw [List.getD_eq_getElem l x hk]
  exact List.getElem_mem hk

theorem carryStack_map_fst (size : Nat) (r : List (Nat × Nat)) :
    (carryStack size r).map Prod.fst = r.map Prod.fst := by
  cases r with
  | nil => rfl
  | cons e r2 => obtain ⟨d2, s2⟩ := e; rfl

theorem carryStack_length (size : Nat) (r : List (Nat × Nat)) :
    (carryStack size r).length = r.length := by
  cases r with
  | nil => rfl
  | cons e r2 => obtain ⟨d2, s2⟩ := e; rfl

theorem carryStack_mem_fst (size : Nat) (r : List (Nat × Nat)) :
    ∀ e ∈ carryStack size r, ∃ e2 ∈ r, e.1 = e2.1 := by
  cases r with
  | nil => intro e he; cases he
  | cons e0 r2 =>
    obtain ⟨d2, s2⟩ := e0
    intro e he
    rcases List.mem_cons.mp he with h1 | h1
    · exact ⟨(d2, s2), by simp, by rw [h1]⟩
    · exact ⟨e, by simp [h1], rfl⟩

theorem stepG_done_spec (c : GenCtx) (tc : TCond) (dv : Nat) (st : GenState)
    (p : List Node) (i : Nat) (h : stepG c tc dv st = .done p i) :
    st.stack = [] ∧ p = st.program ∧ i = st.idx := by
  obtain ⟨prog, stack, idx⟩ := st
  cases stack with
  | nil =>
    simp only [stepG] at h
    cases h
    exact ⟨rfl, rfl, rfl⟩
  | cons e rest =>
    obtain ⟨depth, size⟩ := e
    simp only [stepG] at h
    cases hb : (tc c dv rest depth size idx).1
    · rw [hb] at h
      simp only [Bool.false_eq_true, if_false] at h
      simp only [funcStep] at h
      split at h <;> cases h
    · rw [hb] at h
      simp only [if_true] at h
      simp only [termStep] at h
      split at h
      · cases h
      · split at h
        · split at h <;> cases h
        · cases h

theorem stepG_cont_spec (c : GenCtx) (tc : TCond) (dv : Nat) (st st' : GenState)
    (h : stepG c tc dv st = .cont st') :
    ∃ depth size rest b i1, st.stack = (depth, size) :: rest ∧
      tc c dv rest depth size st.idx = (b, i1) ∧
      ((∃ node : Node, node.arity = 0 ∧ b = true ∧
          st'.program = st.program ++ [node] ∧ st'.stack = carryStack size rest) ∨
       (∃ f : Primitive, f ∈ c.pset.primitives ∧ 0 < f.arity ∧
          size + f.arity ≤ c.max_size ∧ b = false ∧
          st'.program = st.program ++ [Node.prim f] ∧
          st'.stack = List.replicate f.arity (depth + 1, size + f.arity) ++ rest ∧
          st'.idx = i1 + 1)) := by
  obtain ⟨prog, stack, idx⟩ := st
  cases stack with
  | nil => simp only [stepG] at h; cases h
  | cons e rest =>
    obtain ⟨depth, size⟩ := e
    simp only [stepG] at h
    refine ⟨depth, size, rest, (tc c dv rest depth size idx).1,
      (tc c dv rest depth size idx).2, rfl, rfl, ?_⟩
    cases hb : (tc c dv rest depth size idx).1
    · rw [hb] at h
      simp only [Bool.false_eq_true, if_false] at h
      simp only [funcStep] at h
      split at h
      · cases h
      · next g gs hgs =>
        cases h
        right
        set vf := c.pset.primitives.filter (fun f => size + f.arity ≤ c.max_size) with hvf
        have hsub : ∀ f, f ∈ (g :: gs) → f ∈ vf := by
          intro f hf
          by_cases hc : vf ≠ [] ∧ c.desired_trait = Trait.size
          · rw [if_pos hc] at hgs
            rw [← hgs] at hf
            exact List.mem_of_mem_filter hf
          · rw [if_neg hc] at hgs
            rw [← hgs] at hf
            exact hf
        have hfm : (g :: gs).getD
            (c.stream (tc c dv rest depth size idx).2 % (g :: gs).length) ⟨"", 0⟩ ∈ (g :: gs) :=
          choiceD_mem _ _ _ (by simp)
        have hfv : (g :: gs).getD
            (c.stream (tc c dv rest depth size idx).2 % (g :: gs).length) ⟨"", 0⟩ ∈ vf :=
          hsub _ hfm
        rw [hvf, List.mem_filter] at hfv
        refine ⟨_, hfv.1, c.pset.arity_pos _ hfv.1, by simpa using hfv.2, rfl, rfl, rfl, rfl⟩
    · rw [hb] at h
      simp only [if_true] at h
      simp only [termStep] at h
      split at h
      · cases h
      · split at h
        · split at h
          · cases h
          · cases h
            left
            refine ⟨_, ?_, rfl, rfl, rfl⟩
            rfl
        · cases h
          left
          refine ⟨_, ?_, rfl, rfl, rfl⟩
          rfl

theorem stepG_err_spec (c : GenCtx) (tc : TCond) (dv : Nat) (st : GenState)
    (i : Nat) (h : stepG c tc dv st = .err i) :
    ∃ depth size rest i1, st.stack = (depth, size) :: rest ∧
      tc c dv rest depth size st.idx = (true, i1) ∧
      (c.pset.terminals = [] ∨
        ∃ t ∈ c.pset.terminals, t.isEphemeral = true ∧ t.poolSize = 0) := by
  obtain ⟨prog, stack, idx⟩ := st
  cases stack with
  | nil => simp only [stepG] at h; cases h
  | cons e rest =>
    obtain ⟨depth, size⟩ := e
    simp only [stepG] at h
    cases hb : (tc c dv rest depth size idx).1
    · rw [hb] at h
      simp only [Bool.false_eq_true, if_false] at h
      simp only [funcStep] at h
      split at h <;> cases h
    · rw [hb] at h
      simp only [if_true] at h
      refine ⟨depth, size, rest, (tc c dv rest depth size idx).2, rfl, ?_, ?_⟩
      · rw [← hb]
      · simp only [termStep] at h
        split at h
        · next hts => exact Or.inl hts
        · next hts =>
          split at h
          · next heph =>
            split at h
            · next hpool =>
              exact Or.inr ⟨_, choiceD_mem _ _ _ hts, heph, hpool⟩
            · cases h
          · cases h

/-! ### Facts about the grow `terminal_condition` -/

theorem tc_grow_true_terminals (c : GenCtx) (dv : Nat) (stack : List (Nat × Nat))
    (depth size idx : Nat)
    (h : (terminal_condition c dv stack depth size idx).1 = true) :
    c.pset.terminals ≠ [] := by
  intro hts
  unfold terminal_condition at h
  rw [if_pos hts] at h
  cases h

theorem tc_grow_false_depth (c : GenCtx) (dv : Nat) (stack : List (Nat × Nat))
    (depth size idx : Nat) (hterm : c.pset.terminals ≠ [])
    (h : (terminal_condition c dv stack depth size idx).1 = false) :
    depth ≠ c.max_depth := by
  intro hd
  unfold terminal_condition at h
  rw [if_neg hterm] at h
  rw [if_pos (Or.inr (Or.inl hd))] at h
  cases h

theorem tc_grow_empty_vf (c : GenCtx) (dv : Nat) (stack : List (Nat × Nat))
    (depth size idx : Nat) (hterm : c.pset.terminals ≠ [])
    (hvf : c.pset.primitives.filter (fun f => size + f.arity ≤ c.max_size) = []) :
    terminal_condition c dv stack depth size idx = (true, idx) := by
  unfold terminal_condition
  rw [if_neg hterm]
  rw [if_pos (Or.inl hvf)]

theorem tc_grow_no_terminals (c : GenCtx) (dv : Nat) (stack : List (Nat × Nat))
    (depth size idx : Nat) (hterm : c.pset.terminals = []) :
    terminal_condition c dv stack depth size idx = (false, idx) := by
  unfold terminal_condition
  rw [if_pos hterm]

/-! ### Invariant preservation -/

theorem invJ_init (i : Nat) : invJ ⟨[], [(0, 1)], i⟩ := by
  intro d s r h
  simp only [List.cons.injEq, Prod.mk.injEq] at h
  simp [← h.1.2]

theorem stepG_cont_program (c : GenCtx) (tc : TCond) (dv : Nat) (st st' : GenState)
    (h : stepG c tc dv st = .cont st') :
    st'.program.length = st.program.length + 1 := by
  obtain ⟨depth, size, rest, b, i1, hstack, htc, hbr⟩ := stepG_cont_spec c tc dv st st' h
  rcases hbr with ⟨node, _, _, hp, _⟩ | ⟨f, _, _, _, _, hp, _, _⟩ <;>
    simp [hp]

theorem invJ_step (c : GenCtx) (tc : TCond) (dv : Nat) (st st' : GenState)
    (h : stepG c tc dv st = .cont st') (hJ : invJ st) : invJ st' := by
  obtain ⟨depth, size, rest, b, i1, hstack, htc, hbr⟩ := stepG_cont_spec c tc dv st st' h
  have hsz : size = st.program.length + (rest.length + 1) := by
    have := hJ depth size rest hstack
    rw [hstack] at this
    simpa using this
  rcases hbr with ⟨node, _, _, hp, hs⟩ | ⟨f, _, hfa, _, _, hp, hs, _⟩
  · intro d2 s2 r2 h2
    rw [hs] at h2
    cases rest with
    | nil => simp [carryStack] at h2
    | cons e0 r0 =>
      obtain ⟨dd, ss⟩ := e0
      simp only [carryStack, List.cons.injEq, Prod.mk.injEq] at h2
      obtain ⟨⟨hdd, hss⟩, hrr⟩ := h2
      rw [hp, hs]
      simp only [carryStack, List.length_append, List.length_cons, List.length_nil]
      simp only [List.length_cons] at hsz
      omega
  · intro d2 s2 r2 h2
    rw [hs] at h2
    cases ha : f.arity with
    | zero => omega
    | succ a0 =>
      rw [ha] at h2
      simp only [List.replicate, List.cons_append, List.cons.injEq, Prod.mk.injEq] at h2
      obtain ⟨⟨hdd, hss⟩, hrr⟩ := h2
      rw [hp, hs, ha]
      simp only [List.length_append, List.length_replicate, List.length_cons,
        List.length_nil]
      omega

theorem invL_step (c : GenCtx) (tc : TCond) (dv : Nat) (st st' : GenState)
    (h : stepG c tc dv st = .cont st') (hJ : invJ st) (hL : invL c st) : invL c st' := by
  obtain ⟨depth, size, rest, b, i1, hstack, htc, hbr⟩ := stepG_cont_spec c tc dv st st' h
  have hsz : size = st.program.length + (rest.length + 1) := by
    have := hJ depth size rest hstack
    rw [hstack] at this
    simpa using this
  unfold invL at hL ⊢
  rw [hstack] at hL
  simp only [List.length_cons] at hL
  rcases hbr with ⟨node, _, _, hp, hs⟩ | ⟨f, _, hfa, hfb, _, hp, hs, _⟩
  · rw [hp, hs, carryStack_length]
    simp only [List.length_append, List.length_singleton]
    omega
  · rw [hp, hs]
    simp only [List.length_append, List.length_replicate, List.length_singleton]
    omega

theorem invS_step (c : GenCtx) (dv : Nat) (st st' : GenState)
    (hterm : c.pset.terminals ≠ [])
    (h : stepG c terminal_condition dv st = .cont st') (hS : invS c st) : invS c st' := by
  obtain ⟨depth, size, rest, b, i1, hstack, htc, hbr⟩ :=
    stepG_cont_spec c terminal_condition dv st st' h
  obtain ⟨m, hscan, hm, hd⟩ := hS
  have hdep : depth ≤ c.max_depth := by
    have : (depth, size) ∈ st.stack := by rw [hstack]; simp
    exact hd _ this
  rw [hstack] at hscan
  simp only [List.map_cons] at hscan
  rcases hbr with ⟨node, hna, _, hp, hs⟩ | ⟨f, _, hfa, hfb, hbf, hp, hs, _⟩
  · refine ⟨max m depth, ?_, by omega, ?_⟩
    · rw [hp, scanH_append, hscan]
      simp only [scanH, hna, List.replicate, List.nil_append]
      rw [hs, carryStack_map_fst]
    · intro e he
      rw [hs] at he
      obtain ⟨e2, he2, hee⟩ := carryStack_mem_fst size rest e he
      rw [hee]
      exact hd e2 (by rw [hstack]; simp [he2])
  · have hdne : depth ≠ c.max_depth :=
      tc_grow_false_depth c dv rest depth size st.idx hterm (by rw [htc, hbf])
    refine ⟨max m depth, ?_, by omega, ?_⟩
    · rw [hp, scanH_append, hscan]
      simp only [scanH, List.nil_append]
      rw [hs]
      simp only [List.map_append, List.map_replicate]
      rfl
    · intro e he
      rw [hs] at he
      rcases List.mem_append.mp he with h1 | h1
      · have := List.eq_of_mem_replicate h1
        rw [this]
        omega
      · exact hd e (by rw [hstack]; simp [h1])

/-! ### Loop-level lemmas -/

theorem genLoop_eq (c : GenCtx) (tc : TCond) (dv fuel : Nat) (st : GenState) :
    genLoop c tc dv fuel st =
      match stepG c tc dv st with
      | .done p i => (.ok p, i)
      | .fail i => (.infeasible, i)
      | .err i => (.exn, i)
      | .cont st' =>
        match fuel with
        | 0 => (.outOfFuel, st'.idx)
        | fuel' + 1 => genLoop c tc dv fuel' st' := by
  rw [genLoop]

theorem genLoop_ne_outOfFuel (c : GenCtx) (tc : TCond) (dv : Nat) :
    ∀ fuel st, invJ st → invL c st →
      max c.max_size 1 + 1 ≤ fuel + st.program.length →
      (genLoop c tc dv fuel st).1 ≠ .outOfFuel := by
  intro fuel
  induction fuel with
  | zero =>
    intro st hJ hL hf
    rw [genLoop_eq]
    cases hstep : stepG c tc dv st with
    | done p i => simp
    | fail i => simp
    | err i => simp
    | cont st' =>
      exfalso
      obtain ⟨depth, size, rest, b, i1, hstack, _, _⟩ := stepG_cont_spec c tc dv st st' hstep
      have hL2 : st.program.length + st.stack.length ≤ max c.max_size 1 := hL
      rw [hstack] at hL2
      simp only [List.length_cons] at hL2
      omega
  | succ fuel ih =>
    intro st hJ hL hf
    rw [genLoop_eq]
    cases hstep : stepG c tc dv st with
    | done p i => simp
    | fail i => simp
    | err i => simp
    | cont st' =>
      have hp1 := stepG_cont_program c tc dv st st' hstep
      exact ih st' (invJ_step c tc dv st st' hstep hJ)
        (invL_step c tc dv st st' hstep hJ hL) (by omega)

theorem genLoop_ok_spec (c : GenCtx) (dv : Nat) (hterm : c.pset.terminals ≠ []) :
    ∀ fuel st p n, invJ st → invL c st → invS c st →
      genLoop c terminal_condition dv fuel st = (.ok p, n) →
      ∃ m, scanH p [0] 0 = some ([], m) ∧ m ≤ c.max_depth ∧
        p.length ≤ max c.max_size 1 := by
  intro fuel
  induction fuel with
  | zero =>
    intro st p n hJ hL hS h
    rw [genLoop_eq] at h
    cases hstep : stepG c terminal_condition dv st with
    | done p2 i =>
      rw [hstep] at h
      obtain ⟨hnil, hpp, hii⟩ := stepG_done_spec c terminal_condition dv st p2 i hstep
      simp only [Prod.mk.injEq, GenResult.ok.injEq] at h
      obtain ⟨m, hscan, hm, _⟩ := hS
      rw [hnil] at hscan
      refine ⟨m, ?_, hm, ?_⟩
      · rw [← h.1, hpp]
        simpa using hscan
      · rw [← h.1, hpp]
        have := hL
        unfold invL at this
        rw [hnil] at this
        simpa using this
    | fail i => rw [hstep] at h; cases h
    | err i => rw [hstep] at h; cases h
    | cont st' => rw [hstep] at h; cases h
  | succ fuel ih =>
    intro st p n hJ hL hS h
    rw [genLoop_eq] at h
    cases hstep : stepG c terminal_condition dv st with
    | done p2 i =>
      rw [hstep] at h
      obtain ⟨hnil, hpp, hii⟩ := stepG_done_spec c terminal_condition dv st p2 i hstep
      simp only [Prod.mk.injEq, GenResult.ok.injEq] at h
      obtain ⟨m, hscan, hm, _⟩ := hS
      rw [hnil] at hscan
      refine ⟨m, ?_, hm, ?_⟩
      · rw [← h.1, hpp]
        simpa using hscan
      · rw [← h.1, hpp]
        have := hL
        unfold invL at this
        rw [hnil] at this
        simpa using this
    | fail i => rw [hstep] at h; cases h
    | err i => rw [hstep] at h; cases h
    | cont st' =>
      rw [hstep] at h
      exact ih st' p n (invJ_step _ _ dv st st' hstep hJ)
        (invL_step _ _ dv st st' hstep hJ hL) (invS_step c dv st st' hterm hstep hS) h

theorem genLoop_ok_or_infeasible (c : GenCtx) (dv : Nat)
    (hpool : ∀ t ∈ c.pset.terminals, t.isEphemeral = true → 0 < t.poolSize) :
    ∀ fuel st, invJ st → invL c st →
      max c.max_size 1 + 1 ≤ fuel + st.program.length →
      (∃ p, (genLoop c terminal_condition dv fuel st).1 = .ok p) ∨
        (genLoop c terminal_condition dv fuel st).1 = .infeasible := by
  intro fuel
  induction fuel with
  | zero =>
    intro st hJ hL hf
    rw [genLoop_eq]
    cases hstep : stepG c terminal_condition dv st with
    | done p i => exact Or.inl ⟨p, rfl⟩
    | fail i => exact Or.inr rfl
    | err i =>
      exfalso
      obtain ⟨depth, size, rest, i1, hstack, htc, hcase⟩ :=
        stepG_err_spec c terminal_condition dv st i hstep
      have hterm : c.pset.terminals ≠ [] :=
        tc_grow_true_terminals c dv rest depth size st.idx (by rw [htc])
      rcases hcase with h1 | ⟨t, htm, heph, hpz⟩
      · exact hterm h1
      · have := hpool t htm heph
        omega
    | cont st' =>
      exfalso
      obtain ⟨depth, size, rest, b, i1, hstack, _, _⟩ :=
        stepG_cont_spec c terminal_condition dv st st' hstep
      have hL2 : st.program.length + st.stack.length ≤ max c.max_size 1 := hL
      rw [hstack] at hL2
      simp only [List.length_cons] at hL2
      omega
  | succ fuel ih =>
    intro st hJ hL hf
    rw [genLoop_eq]
    cases hstep : stepG c terminal_condition dv st with
    | done p i => exact Or.inl ⟨p, rfl⟩
    | fail i => exact Or.inr rfl
    | err i =>
      exfalso
      obtain ⟨depth, size, rest, i1, hstack, htc, hcase⟩ :=
        stepG_err_spec c terminal_condition dv st i hstep
      have hterm : c.pset.terminals ≠ [] :=
        tc_grow_true_terminals c dv rest depth size st.idx (by rw [htc])
      rcases hcase with h1 | ⟨t, htm, heph, hpz⟩
      · exact hterm h1
      · have := hpool t htm heph
        omega
    | cont st' =>
      have hp1 := stepG_cont_program c terminal_condition dv st st' hstep
      exact ih st' (invJ_step _ _ dv st st' hstep hJ)
        (invL_step _ _ dv st st' hstep hJ hL) (by omega)

theorem genLoop_no_terminals (c : GenCtx) (dv : Nat) (hterm : c.pset.terminals = []) :
    ∀ fuel st, st.stack ≠ [] → invJ st → invL c st →
      max c.max_size 1 + 1 ≤ fuel + st.program.length →
      (genLoop c terminal_condition dv fuel st).1 = .infeasible := by
  intro fuel
  induction fuel with
  | zero =>
    intro st hne hJ hL hf
    exfalso
    have hL2 : st.program.length + st.stack.length ≤ max c.max_size 1 := hL
    have : 1 ≤ st.stack.length := by
      cases hst : st.stack with
      | nil => exact absurd hst hne
      | cons e r => simp
    omega
  | succ fuel ih =>
    intro st hne hJ hL hf
    rw [genLoop_eq]
    cases hstep : stepG c terminal_condition dv st with
    | done p i =>
      exfalso
      obtain ⟨hnil, _, _⟩ := stepG_done_spec c terminal_condition dv st p i hstep
      exact hne hnil
    | fail i => rfl
    | err i =>
      exfalso
      obtain ⟨depth, size, rest, i1, hstack, htc, _⟩ :=
        stepG_err_spec c terminal_condition dv st i hstep
      have := tc_grow_no_terminals c dv rest depth size st.idx hterm
      rw [this] at htc
      cases htc
    | cont st' =>
      obtain ⟨depth, size, rest, b, i1, hstack, htc, hbr⟩ :=
        stepG_cont_spec c terminal_condition dv st st' hstep
      have hp1 := stepG_cont_program c terminal_condition dv st st' hstep
      have hne2 : st'.stack ≠ [] := by
        rcases hbr with ⟨node, _, hbt, _, _⟩ | ⟨f, _, hfa, _, _, _, hs, _⟩
        · exfalso
          have := tc_grow_no_terminals c dv rest depth size st.idx hterm
          rw [this] at htc
          cases htc
          cases hbt
        · rw [hs]
          cases ha : f.arity with
          | zero => omega
          | succ a0 => simp [List.replicate]
      exact ih st' hne2 (invJ_step _ _ dv st st' hstep hJ)
        (invL_step _ _ dv st st' hstep hJ hL) (by omega)

theorem stepsG_invJ (c : GenCtx) (tc : TCond) (dv : Nat) :
    ∀ n st0 st, invJ st0 → stepsG c tc dv n st0 = some st → invJ st := by
  intro n
  induction n with
  | zero =>
    intro st0 st h0 h
    simp only [stepsG, Option.some.injEq] at h
    rw [← h]
    exact h0
  | succ n ih =>
    intro st0 st h0 h
    rw [stepsG] at h
    cases hstep : stepG c tc dv st0 with
    | cont st1 =>
      rw [hstep] at h
      exact ih st1 st (invJ_step c tc dv st0 st1 hstep h0) h
    | done p i => rw [hstep] at h; cases h
    | fail i => rw [hstep] at h; cases h
    | err i => rw [hstep] at h; cases h

/-! ### Arithmetic lemmas for the bin geometry -/

theorem floorLog2Aux_le (fuel : Nat) : ∀ n, 1 ≤ n → 2 ^ floorLog2Aux fuel n ≤ n := by
  induction fuel with
  | zero => intro n hn; simpa [floorLog2Aux] using hn
  | succ fuel ih =>
    intro n hn
    unfold floorLog2Aux
    by_cases h1 : n ≤ 1
    · rw [if_pos h1]
      simpa using hn
    · rw [if_neg h1]
      have h2 : 1 ≤ n / 2 := by omega
      have := ih (n / 2) h2
      calc 2 ^ (floorLog2Aux fuel (n / 2) + 1) = 2 ^ floorLog2Aux fuel (n / 2) * 2 := by
            rw [Nat.pow_succ]
        _ ≤ (n / 2) * 2 := by omega
        _ ≤ n := by omega

theorem one_le_roundToDouble (n : Nat) (hn : 1 ≤ n) : 1 ≤ roundToDouble n := by
  unfold roundToDouble
  by_cases h1 : n < 2 ^ 53
  · rw [if_pos h1]
    exact hn
  · rw [if_neg h1]
    have hle : 2 ^ (floorLog2 n - 52) ≤ n := by
      calc 2 ^ (floorLog2 n - 52) ≤ 2 ^ floorLog2 n :=
            Nat.pow_le_pow_right (by omega) (by omega)
        _ ≤ n := floorLog2Aux_le n n (by omega)
    have hq : 1 ≤ n / 2 ^ (floorLog2 n - 52) :=
      (Nat.one_le_div_iff (Nat.pos_pow_of_pos _ (by omega))).mpr hle
    have hp : 0 < 2 ^ (floorLog2 n - 52) := Nat.pos_pow_of_pos _ (by omega)
    dsimp only
    split
    · exact Nat.one_le_iff_ne_zero.mpr (Nat.mul_ne_zero (by omega) (by omega))
    · exact Nat.one_le_iff_ne_zero.mpr (Nat.mul_ne_zero (by omega) (by omega))

theorem one_le_max_possible_size (ma md : Nat) (hma : 1 ≤ ma) :
    1 ≤ max_possible_size ma md := by
  unfold max_possible_size get_max_size
  by_cases h1 : ma = 1
  · rw [if_pos h1]
    omega
  · rw [if_neg h1]
    rw [if_neg (by omega : ¬ (md : Int) < 0)]
    have hq : 1 ≤ (ma ^ ((md : Int).toNat + 1) - 1) / (ma - 1) := by
      have hma2 : 2 ≤ ma := by omega
      have hpow : ma ≤ ma ^ ((md : Int).toNat + 1) := by
        calc ma = ma ^ 1 := (pow_one ma).symm
          _ ≤ ma ^ ((md : Int).toNat + 1) := Nat.pow_le_pow_right (by omega) (by omega)
      rw [Nat.le_div_iff_mul_le (by omega : 0 < ma - 1)]
      omega
    have := one_le_roundToDouble _ hq
    omega

theorem bin_max_size_eq_min (M b : Nat) (hM : 1 ≤ M) (hb : 1 ≤ b) :
    ∀ i < num_size_bins M b, bin_max_size i b M = min ((i + 1) * b) M := by
  intro i hi
  have hdm := Nat.div_add_mod (M + b - 1) b
  have hr : (M + b - 1) % b < b := Nat.mod_lt _ (by omega)
  have hA : b * num_size_bins M b + (M + b - 1) % b = M + b - 1 := by
    unfold num_size_bins
    omega
  have hnb1 : 1 ≤ num_size_bins M b := by omega
  unfold bin_max_size
  by_cases hlast : i = num_size_bins M b - 1
  · rw [if_pos hlast]
    have hi1 : i + 1 = num_size_bins M b := by omega
    rw [hi1]
    have hMle : M ≤ num_size_bins M b * b := by
      rw [Nat.mul_comm]
      omega
    omega
  · rw [if_neg hlast]
    unfold num_size_bins at hi hlast hA hnb1
    obtain ⟨k, hk⟩ : ∃ k, (M + b - 1) / b = k + 1 := ⟨(M + b - 1) / b - 1, by omega⟩
    have hik : i + 1 ≤ k := by omega
    have h1 : (i + 1) * b ≤ k * b := Nat.mul_le_mul_right b hik
    have h2 : b * (k + 1) + (M + b - 1) % b = M + b - 1 := by
      rw [← hk]
      omega
    have h3 : b * k + b + (M + b - 1) % b = M + b - 1 := by
      rw [← Nat.mul_succ]
      exact h2
    rw [Nat.mul_comm b k] at h3
    have h4 : (i + 1) * b ≤ M := by omega
    omega

/-! ### Claim theorems -/

/-- Claim C2: `get_max_size` is claimed to return the exact node count of a
complete `arity`-ary tree of the given depth with no loss of exactness at
every magnitude.  The small examples hold, but the CPython float division
`(1-m**(d+1))/(1-m)` rounds to the nearest double: at `arity = 2`,
`depth = 60` the code returns `2^61 = 2305843009213693952` while the exact
node count is `2^61 - 1 = 2305843009213693951`. -/
theorem c2_get_max_size_float_rounding :
    get_max_size 2 60 = 2305843009213693952 ∧
    spec_complete_tree_node_count 2 60 = 2305843009213693951 ∧
    get_max_size 2 60 ≠ (spec_complete_tree_node_count 2 60 : Int) ∧
    get_max_size 1 4 = 5 ∧ get_max_size 2 3 = 15 ∧ get_max_size 3 2 = 13 :=
  ⟨by decide, by decide, by decide, by decide, by decide, by decide⟩

/-- Claim C9: for a sampler configuration with `max_arity ≥ 1` and
`bin_size ≥ 1`, every bin index `i < num_size_bins` has
`min_size = i*bin_size+1` and the code's last-bin special case coincides
with `min ((i+1)*bin_size, max_possible_size)`. -/
theorem c9_bin_partition (max_arity max_depth bin_size : Nat)
    (hma : 1 ≤ max_arity) (hb : 1 ≤ bin_size) :
    ∀ i < num_size_bins (max_possible_size max_arity max_depth) bin_size,
      bin_min_size i bin_size = i * bin_size + 1 ∧
      bin_max_size i bin_size (max_possible_size max_arity max_depth) =
        min ((i + 1) * bin_size) (max_possible_size max_arity max_depth) := by
  intro i hi
  exact ⟨rfl, bin_max_size_eq_min _ _ (one_le_max_possible_size _ _ hma) hb i hi⟩

/-- Witness for C9 at the spec's example configuration `max_arity = 2`,
`max_depth = 3`, `bin_size = 4`: `max_possible_size = 15`, `4` bins, and the
first and last bins have ranges `[1, 4]` and `[13, 15]`. -/
theorem c9_bin_partition_witness :
    max_possible_size 2 3 = 15 ∧
    num_size_bins (max_possible_size 2 3) 4 = 4 ∧
    (bin_min_size 0 4 = 0 * 4 + 1 ∧
      bin_max_size 0 4 (max_possible_size 2 3) =
        min ((0 + 1) * 4) (max_possible_size 2 3)) ∧
    (bin_min_size 3 4 = 3 * 4 + 1 ∧
      bin_max_size 3 4 (max_possible_size 2 3) =
        min ((3 + 1) * 4) (max_possible_size 2 3)) ∧
    bin_min_size 3 4 = 13 ∧ bin_max_size 3 4 (max_possible_size 2 3) = 15 :=
  ⟨by decide, by decide,
    c9_bin_partition 2 3 4 (by decide) (by decide) 0 (by decide),
    c9_bin_partition 2 3 4 (by decide) (by decide) 3 (by decide),
    by decide, by decide⟩

/-- Claim C1 (amended): for an alphabet with at least one terminal and
bounds `min_depth ≤ max_depth`, `1 ≤ min_size ≤ max_size`, every program
`generate_grow` returns is a complete well-formed tree whose node count is
at most `max_size` and whose depth is at most `max_depth`.  (The minimum
bounds are not guaranteed; see the counterexample.) -/
theorem c1_returned_trees_respect_upper_bounds
    (pset : PSet) (min_depth max_depth min_size max_size : Nat)
    (trait : Trait) (stream : Nat → Nat)
    (hterm : pset.terminals ≠ [])
    (hmd : min_depth ≤ max_depth) (hms : 1 ≤ min_size) (hsz : min_size ≤ max_size)
    (p : List Node) (n : Nat)
    (hok : generate_grow pset min_depth max_depth min_size max_size trait stream =
      (.ok p, n)) :
    ∃ t : Tree, Tree.WF t ∧ Tree.lin t = p ∧ Tree.sizeT t = p.length ∧
      Tree.sizeT t ≤ max_size ∧ Tree.depthT t ≤ max_depth := by
  unfold generate_grow generate_program_ at hok
  have hinit : ∀ i1 dv, genLoop ⟨pset, min_depth, max_depth, min_size, max_size,
      trait, stream⟩ terminal_condition dv (max max_size 1 + 1) ⟨[], [(0, 1)], i1⟩ =
      (.ok p, n) →
      ∃ t : Tree, Tree.WF t ∧ Tree.lin t = p ∧ Tree.sizeT t = p.length ∧
        Tree.sizeT t ≤ max_size ∧ Tree.depthT t ≤ max_depth := by
    intro i1 dv hrun
    have hJ : invJ ⟨[], [(0, 1)], i1⟩ := invJ_init i1
    have hL : invL ⟨pset, min_depth, max_depth, min_size, max_size, trait, stream⟩
        ⟨[], [(0, 1)], i1⟩ := by
      unfold invL
      simp
    have hS : invS ⟨pset, min_depth, max_depth, min_size, max_size, trait, stream⟩
        ⟨[], [(0, 1)], i1⟩ := by
      refine ⟨0, rfl, by omega, ?_⟩
      intro e he
      simp only [List.mem_singleton] at he
      rw [he]
      omega
    obtain ⟨m, hscan, hm, hlen⟩ :=
      genLoop_ok_spec _ dv hterm _ _ p n hJ hL hS hrun
    dsimp only at hm hlen
    have hmax : max max_size 1 = max_size := Nat.max_eq_left (by omega)
    rw [hmax] at hlen
    obtain ⟨ts, hwf, hlen1, hlin⟩ := scanH_complete_forest p [0] 0 m hscan
    cases ts with
    | nil => simp at hlen1
    | cons t ts2 =>
      cases ts2 with
      | cons t2 ts3 => simp at hlen1
      | nil =>
        have hlt : Tree.lin t = p := by
          have : Tree.linL [t] = Tree.lin t ++ [] := rfl
          rw [this, List.append_nil] at hlin
          exact hlin
        have hwt : Tree.WF t := hwf t (by simp)
        have hdep : scanH p [0] 0 = some ([], Tree.depthT t) := by
          rw [← hlt]
          have := scanH_lin t hwt [] [] 0 0
          rw [List.append_nil] at this
          simpa [scanH] using this
        rw [hscan] at hdep
        simp only [Option.some.injEq, Prod.mk.injEq] at hdep
        refine ⟨t, hwt, hlt, ?_, ?_, ?_⟩
        · rw [← Tree.lin_length, hlt]
        · rw [← Tree.lin_length, hlt]
          exact hlen
        · omega
  cases trait with
  | depth =>
    simp only [randint, if_pos hmd] at hok
    exact hinit _ _ hok
  | size =>
    simp only [randint, if_pos hsz] at hok
    exact hinit _ _ hok

/-- Witness for the amended C1: the alphabet `{v0, add}` with bounds
`min_depth = 0`, `max_depth = 2`, `min_size = 1`, `max_size = 3` and the
all-zero stream yields the single-terminal program, which is a complete tree
of size `1 ≤ 3` and depth `0 ≤ 2`. -/
theorem c1_returned_trees_respect_upper_bounds_witness :
    ∃ t : Tree, Tree.WF t ∧ Tree.lin t = [Node.term ⟨"v0", false, 0⟩ none] ∧
      Tree.sizeT t = ([Node.term ⟨"v0", false, 0⟩ none] : List Node).length ∧
      Tree.sizeT t ≤ 3 ∧ Tree.depthT t ≤ 2 :=
  c1_returned_trees_respect_upper_bounds psetW 0 2 1 3 Trait.size streamZ
    (by decide) (by decide) (by decide) (by decide)
    [Node.term ⟨"v0", false, 0⟩ none] 2 (by decide)

/-- Counterexample to C1 as stated: with the alphabet `{v0, add}` (a
terminal exists, all arities positive) and bounds `min_depth = 1`,
`max_depth = 2`, `min_size = 2`, `max_size = 2`, `generate_grow` returns a
program of size `1 < min_size` and depth `0 < min_depth` instead of
signalling infeasibility: no arity-feasible function exists at the root, so
a terminal is forced before the minimum bounds are met. -/
theorem c1_counterexample :
    generate_grow psetW 1 2 2 2 Trait.size streamZ =
      (GenResult.ok [Node.term ⟨"v0", false, 0⟩ none], 2) ∧
    ([Node.term ⟨"v0", false, 0⟩ none] : List Node).length < 2 ∧
    heightScan [Node.term ⟨"v0", false, 0⟩ none] < 1 :=
  ⟨by decide, by decide, by decide⟩

/-- Claim C3: along any run of the construction loop of
`generate_program_` (any terminal condition), whenever an obligation
`(d, s)` is popped — i.e. is on top of the stack of a reachable state — its
size field `s` equals the number of nodes already appended plus the number
of pending obligations, the popped one included. -/
theorem c3_size_bookkeeping (c : GenCtx) (tc : TCond) (dv : Nat) (i0 n : Nat)
    (st : GenState) (d s : Nat) (r : List (Nat × Nat))
    (hreach : stepsG c tc dv n ⟨[], [(0, 1)], i0⟩ = some st)
    (hstack : st.stack = (d, s) :: r) :
    s = st.program.length + (r.length + 1) := by
  have hJ := stepsG_invJ c tc dv n ⟨[], [(0, 1)], i0⟩ st (invJ_init i0) hreach
  have := hJ d s r hstack
  rw [hstack] at this
  simpa using this

/-- Witness for C3: after one loop iteration of the grow generator on
`{v0, add}` (a function node `add` was appended and two sibling obligations
pushed), the top obligation's size field `3` equals `1` appended node plus
`2` pending obligations. -/
theorem c3_size_bookkeeping_witness :
    (3 : Nat) = ([Node.prim ⟨"add", 2⟩] : List Node).length +
      (([((1 : Nat), (3 : Nat))] : List (Nat × Nat)).length + 1) :=
  c3_size_bookkeeping ctxW terminal_condition 2 0 1
    ⟨[Node.prim ⟨"add", 2⟩], [(1, 3), (1, 3)], 2⟩ 1 3 [(1, 3)]
    (by decide) (by decide)

/-- Claim C4: whenever a construction step requires a function (the terminal
condition is false) and the feasible function set is empty — no function
keeps `size + arity ≤ max_size`, or, under `'size'` targeting, the
refinement of lines 127–163 leaves none with the desired total size
achievable — the run returns the infeasible result `None` from that point,
with no exception and no partial tree; and in particular, when no terminal
matches the return type and `max_size < arity` for every available
function, `generate_grow` always reports infeasible. -/
theorem c4_empty_feasible_set_infeasible :
    (∀ (c : GenCtx) (dv fuel : Nat) (prog : List Node) (stack : List (Nat × Nat))
        (idx : Nat) (depth size : Nat) (rest : List (Nat × Nat)) (i1 : Nat),
      stack = (depth, size) :: rest →
      terminal_condition c dv rest depth size idx = (false, i1) →
      (if c.pset.primitives.filter (fun f => size + f.arity ≤ c.max_size) ≠ [] ∧
          c.desired_trait = Trait.size
        then sizeFilter c dv rest depth size
          (c.pset.primitives.filter (fun f => size + f.arity ≤ c.max_size))
        else c.pset.primitives.filter (fun f => size + f.arity ≤ c.max_size)) = [] →
      genLoop c terminal_condition dv fuel ⟨prog, stack, idx⟩ = (.infeasible, i1)) ∧
    (∀ (pset : PSet) (min_depth max_depth min_size max_size : Nat)
        (trait : Trait) (stream : Nat → Nat),
      pset.terminals = [] →
      (∀ f ∈ pset.primitives, max_size < f.arity) →
      min_depth ≤ max_depth → min_size ≤ max_size →
      ∃ n, generate_grow pset min_depth max_depth min_size max_size trait stream =
        (.infeasible, n)) := by
  have key : ∀ (c : GenCtx) (dv fuel : Nat) (prog : List Node) (stack : List (Nat × Nat))
      (idx : Nat) (depth size : Nat) (rest : List (Nat × Nat)) (i1 : Nat),
      stack = (depth, size) :: rest →
      terminal_condition c dv rest depth size idx = (false, i1) →
      (if c.pset.primitives.filter (fun f => size + f.arity ≤ c.max_size) ≠ [] ∧
          c.desired_trait = Trait.size
        then sizeFilter c dv rest depth size
          (c.pset.primitives.filter (fun f => size + f.arity ≤ c.max_size))
        else c.pset.primitives.filter (fun f => size + f.arity ≤ c.max_size)) = [] →
      genLoop c terminal_condition dv fuel ⟨prog, stack, idx⟩ = (.infeasible, i1) := by
    intro c dv fuel prog stack idx depth size rest i1 hstack htc hvf2
    subst hstack
    rw [genLoop_eq]
    have hstep : stepG c terminal_condition dv ⟨prog, (depth, size) :: rest, idx⟩ =
        .fail i1 := by
      simp only [stepG, htc]
      simp only [Bool.false_eq_true, if_false]
      simp only [funcStep]
      rw [hvf2]
    rw [hstep]
  refine ⟨key, ?_⟩
  intro pset min_depth max_depth min_size max_size trait stream hterm harity hmd hsz
  have hvf : pset.primitives.filter
      (fun f => (1 : Nat) + f.arity ≤ max_size) = [] := by
    rw [List.filter_eq_nil_iff]
    intro f hf
    have := harity f hf
    simp only [decide_eq_true_eq]
    omega
  unfold generate_grow generate_program_
  cases trait with
  | depth =>
    simp only [randint, if_pos hmd]
    refine ⟨1, ?_⟩
    refine key _ _ _ [] [(0, 1)] 1 0 1 [] 1 rfl
      (tc_grow_no_terminals _ _ [] 0 1 1 hterm) ?_
    dsimp only
    rw [hvf]
    simp
  | size =>
    simp only [randint, if_pos hsz]
    refine ⟨1, ?_⟩
    refine key _ _ _ [] [(0, 1)] 1 0 1 [] 1 rfl
      (tc_grow_no_terminals _ _ [] 0 1 1 hterm) ?_
    dsimp only
    rw [hvf]
    simp

/-- Witness for C4, exercising both failure modes of the feasible set.
First conjunct: on `{v0, add}` with `max_size = 10` and `desired_value = 4`
under `max_depth = 1`, the arity-feasible set `{add}` is non-empty but the
`'size'`-targeting refinement empties it (no completion can reach size `4`),
and the run from the initial obligation returns the infeasible result.
Second conjunct: an alphabet with no terminals and one arity-5 function
with `max_size = 3 < 5` is reported infeasible. -/
theorem c4_empty_feasible_set_infeasible_witness :
    genLoop ⟨psetW, 0, 1, 1, 10, Trait.size, streamT⟩ terminal_condition 4 11
        ⟨[], [(0, 1)], 1⟩ = (.infeasible, 1) ∧
    ∃ n, generate_grow ⟨[], [⟨"big", 5⟩], by
        intro f hf
        rw [List.mem_singleton] at hf
        subst hf
        decide⟩ 0 1 1 3 Trait.size streamZ = (.infeasible, n) :=
  ⟨c4_empty_feasible_set_infeasible.1 ⟨psetW, 0, 1, 1, 10, Trait.size, streamT⟩ 4 11
      [] [(0, 1)] 1 0 1 [] 1 rfl (by decide) (by decide),
    c4_empty_feasible_set_infeasible.2 _ 0 1 1 3 Trait.size streamZ rfl
      (by
        intro f hf
        rw [List.mem_singleton] at hf
        subst hf
        decide)
      (by decide) (by decide)⟩

/-- Claim C10 (amended): for bounds with `min_depth ≤ max_depth` and
`min_size ≤ max_size` and a primitive set whose ephemeral terminals have
non-empty constant pools, `generate_grow` always terminates within the
`max max_size 1 + 1` fuel bound and returns either a completed program or
the infeasible result `None`.  (For an ephemeral terminal with an empty
pool the Python code instead raises; see the counterexample.) -/
theorem c10_terminates_ok_or_infeasible
    (pset : PSet) (min_depth max_depth min_size max_size : Nat)
    (trait : Trait) (stream : Nat → Nat)
    (hmd : min_depth ≤ max_depth) (hsz : min_size ≤ max_size)
    (hpool : ∀ t ∈ pset.terminals, t.isEphemeral = true → 0 < t.poolSize) :
    (∃ p, (generate_grow pset min_depth max_depth min_size max_size trait stream).1 =
      .ok p) ∨
    (generate_grow pset min_depth max_depth min_size max_size trait stream).1 =
      .infeasible := by
  unfold generate_grow generate_program_
  have hinit : ∀ i1 dv,
      (∃ p, (genLoop ⟨pset, min_depth, max_depth, min_size, max_size, trait, stream⟩
          terminal_condition dv (max max_size 1 + 1) ⟨[], [(0, 1)], i1⟩).1 = .ok p) ∨
      (genLoop ⟨pset, min_depth, max_depth, min_size, max_size, trait, stream⟩
          terminal_condition dv (max max_size 1 + 1) ⟨[], [(0, 1)], i1⟩).1 =
        .infeasible := by
    intro i1 dv
    refine genLoop_ok_or_infeasible _ dv hpool _ _ (invJ_init i1) ?_ ?_
    · unfold invL
      simp
    · simp
  cases trait with
  | depth =>
    simp only [randint, if_pos hmd]
    exact hinit _ _
  | size =>
    simp only [randint, if_pos hsz]
    exact hinit _ _

/-- Witness for the amended C10: on the alphabet `{v0, add}` with bounds
`(0, 2, 1, 3)` and the all-zero stream the generator returns a completed
program. -/
theorem c10_terminates_ok_or_infeasible_witness :
    (∃ p, (generate_grow psetW 0 2 1 3 Trait.size streamZ).1 = .ok p) ∨
    (generate_grow psetW 0 2 1 3 Trait.size streamZ).1 = .infeasible :=
  c10_terminates_ok_or_infeasible psetW 0 2 1 3 Trait.size streamZ
    (by decide) (by decide) (by decide)

/-- Counterexample to C10 as stated: a primitive set whose only terminal is
an ephemeral constant over an empty pool (as `generate_primitive_set` builds
when `num_constants = 0`) satisfies the claim's bound hypotheses
(`0 ≤ 0`, `1 ≤ 1`), yet materializing the terminal raises (`randint(0, -1)`)
— the run ends in the exception result after two consumed draws, returning
neither a complete program list nor `None`. -/
theorem c10_counterexample :
    generate_grow psetEphW 0 0 1 1 Trait.depth streamZ = (GenResult.exn, 2) ∧
    GenResult.exn ≠ GenResult.infeasible :=
  ⟨by decide, by decide⟩

/-! ### Draw-index monotonicity -/

theorem tc_idx_bounds (c : GenCtx) (dv : Nat) (stack : List (Nat × Nat))
    (depth size idx : Nat) :
    (terminal_condition c dv stack depth size idx).2 = idx ∨
      (terminal_condition c dv stack depth size idx).2 = idx + 1 := by
  unfold terminal_condition
  dsimp only
  split_ifs <;> simp

theorem stepG_nextIdx_ge (c : GenCtx) (tc : TCond) (dv : Nat) (st : GenState)
    (htc : ∀ stack depth size idx, idx ≤ (tc c dv stack depth size idx).2) :
    st.idx ≤ nextIdx (stepG c tc dv st) := by
  obtain ⟨prog, stack, idx⟩ := st
  cases stack with
  | nil => simp [stepG, nextIdx]
  | cons e rest =>
    obtain ⟨depth, size⟩ := e
    simp only [stepG]
    have h1 := htc rest depth size idx
    cases hb : (tc c dv rest depth size idx).1
    · rw [if_neg (by decide : ¬ (false = true))]
      simp only [funcStep]
      split
      · simpa [nextIdx] using h1
      · simp only [nextIdx]
        omega
    · rw [if_pos rfl]
      simp only [termStep]
      split
      · simpa [nextIdx] using h1
      · split
        · split
          · simp only [nextIdx]
            omega
          · simp only [nextIdx]
            omega
        · simp only [nextIdx]
          omega

theorem tc_grow_idx_ge (c : GenCtx) (dv : Nat) :
    ∀ stack depth size idx, idx ≤ (terminal_condition c dv stack depth size idx).2 := by
  intro stack depth size idx
  rcases tc_idx_bounds c dv stack depth size idx with h | h <;> omega

theorem genLoop_idx_ge (c : GenCtx) (dv : Nat) :
    ∀ fuel st, st.idx ≤ (genLoop c terminal_condition dv fuel st).2 := by
  intro fuel
  induction fuel with
  | zero =>
    intro st
    rw [genLoop_eq]
    have := stepG_nextIdx_ge c terminal_condition dv st (tc_grow_idx_ge c dv)
    cases hstep : stepG c terminal_condition dv st <;>
      rw [hstep] at this <;> simpa [nextIdx] using this
  | succ fuel ih =>
    intro st
    rw [genLoop_eq]
    have := stepG_nextIdx_ge c terminal_condition dv st (tc_grow_idx_ge c dv)
    cases hstep : stepG c terminal_condition dv st with
    | done p i => rw [hstep] at this; simpa [nextIdx] using this
    | fail i => rw [hstep] at this; simpa [nextIdx] using this
    | err i => rw [hstep] at this; simpa [nextIdx] using this
    | cont st' =>
      rw [hstep] at this
      simp only [nextIdx] at this
      exact le_trans this (ih st')

/-- Claim C6 (amended): configuration errors are not rejected at entry.  An
alphabet with no terminals for the return type consumes the `desired_value`
draw and then returns the ordinary infeasible result `None`, identical to an
infeasible construction; and `min_size > max_size` surfaces only as the
`randint` exception under the `'size'` trait (before any draw), not as a
distinguishable configuration error. -/
theorem c6_no_entry_validation :
    (∀ (pset : PSet) (min_depth max_depth min_size max_size : Nat)
        (trait : Trait) (stream : Nat → Nat),
      pset.terminals = [] →
      (trait = Trait.depth → min_depth ≤ max_depth) →
      (trait = Trait.size → min_size ≤ max_size) →
      (generate_grow pset min_depth max_depth min_size max_size trait stream).1 =
        .infeasible ∧
      1 ≤ (generate_grow pset min_depth max_depth min_size max_size trait stream).2) ∧
    (∀ (pset : PSet) (min_depth max_depth min_size max_size : Nat)
        (stream : Nat → Nat),
      max_size < min_size →
      generate_grow pset min_depth max_depth min_size max_size Trait.size stream =
        (.exn, 0)) := by
  constructor
  · intro pset min_depth max_depth min_size max_size trait stream hterm hd hs
    unfold generate_grow generate_program_
    have hinit : ∀ dv,
        (genLoop ⟨pset, min_depth, max_depth, min_size, max_size, trait, stream⟩
            terminal_condition dv (max max_size 1 + 1) ⟨[], [(0, 1)], 1⟩).1 =
          .infeasible ∧
        1 ≤ (genLoop ⟨pset, min_depth, max_depth, min_size, max_size, trait, stream⟩
            terminal_condition dv (max max_size 1 + 1) ⟨[], [(0, 1)], 1⟩).2 := by
      intro dv
      constructor
      · refine genLoop_no_terminals _ dv hterm _ _ (by simp) (invJ_init 1) ?_ ?_
        · unfold invL
          simp
        · simp
      · have := genLoop_idx_ge
          ⟨pset, min_depth, max_depth, min_size, max_size, trait, stream⟩ dv
          (max max_size 1 + 1) ⟨[], [(0, 1)], 1⟩
        simpa using this
    cases trait with
    | depth =>
      simp only [randint, if_pos (hd rfl)]
      exact hinit _
    | size =>
      simp only [randint, if_pos (hs rfl)]
      exact hinit _
  · intro pset min_depth max_depth min_size max_size stream hlt
    unfold generate_grow generate_program_
    simp only [randint, if_neg (by omega : ¬ min_size ≤ max_size)]

/-- Witness for the amended C6: the terminal-free alphabet `{sq}` with valid
ranges returns the plain infeasible result after consuming a draw, and
`min_size = 2 > 1 = max_size` with the `'size'` trait raises at the first
`randint`. -/
theorem c6_no_entry_validation_witness :
    ((generate_grow psetNoTermW 1 2 1 1 Trait.size streamZ).1 = .infeasible ∧
      1 ≤ (generate_grow psetNoTermW 1 2 1 1 Trait.size streamZ).2) ∧
    generate_grow psetNoTermW 0 0 2 1 Trait.size streamZ = (.exn, 0) :=
  ⟨c6_no_entry_validation.1 psetNoTermW 1 2 1 1 Trait.size streamZ rfl
      (by intro h; cases h) (fun _ => by decide),
    c6_no_entry_validation.2 psetNoTermW 0 0 2 1 streamZ (by decide)⟩

/-- Counterexample to C6 as stated: the configuration error "no terminal for
the return type" is not rejected at entry with a distinguishable cause — the
run consumes the `desired_value` draw (final index `1`, not `0`) and returns
exactly the same value `(None, 1)` that a well-configured but infeasible
construction returns (`{v0, add}` with `desired_value = 4` unreachable under
`max_depth = 1`), so the two failure kinds are indistinguishable. -/
theorem c6_counterexample :
    generate_grow psetNoTermW 1 2 1 1 Trait.size streamZ = (GenResult.infeasible, 1) ∧
    generate_grow psetW 0 1 1 10 Trait.size streamT = (GenResult.infeasible, 1) :=
  ⟨by decide, by decide⟩

/-! ### Sampler claims -/

/-- Claim C5 (amended): the sampling loop checks only the upper bounds — on
`depth > max_depth or size > max_size` it prints a warning and skips the
bin-dictionary update (the tree still having been appended to
`primitive_trees`), and the loop continues rather than aborting; violations
of the minimum bounds are not checked at all. -/
theorem c5_bounds_check_warns_and_skips (cfg : BinCfg) (bs : BinState) (p : List Node)
    (h : cfg.max_depth < heightScan p ∨ cfg.max_size < p.length) :
    recordProgram cfg bs (some p) =
      ({bs with trees := bs.trees ++ [p]}, .boundsWarning) := by
  unfold recordProgram
  dsimp only
  rw [if_pos h]

/-- Witness for the amended C5: a five-node program exceeds `max_size = 4`
of `binCfgW`, so the record step returns the warning outcome and leaves the
bin dictionary unchanged. -/
theorem c5_bounds_check_warns_and_skips_witness :
    recordProgram binCfgW initialBin
      (some (List.replicate 5 (Node.term ⟨"v0", false, 0⟩ none))) =
      ({initialBin with trees :=
          initialBin.trees ++ [List.replicate 5 (Node.term ⟨"v0", false, 0⟩ none)]},
        .boundsWarning) :=
  c5_bounds_check_warns_and_skips binCfgW initialBin
    (List.replicate 5 (Node.term ⟨"v0", false, 0⟩ none)) (by decide)

/-- Counterexample to C5 as stated: a single-terminal program — size `1`,
below the `min_size = 2` of the second size bin, and depth `0`, below the
sampler's `min_depth = 1` — is silently accepted and recorded in the bin
dictionary: the loop's check (profile.py line 463) tests only
`depth > max_depth or size > max_size`, so a minimum-bound violation is
neither surfaced nor dropped, contradicting "any of the four bounds ... never
silently accepts". -/
theorem c5_counterexample :
    (recordProgram binCfgW initialBin (some [Node.term ⟨"v0", false, 0⟩ none])).2 =
      RecordOutcome.accepted ∧
    (recordProgram binCfgW initialBin
      (some [Node.term ⟨"v0", false, 0⟩ none])).1.programs = ["v0"] ∧
    ([Node.term ⟨"v0", false, 0⟩ none] : List Node).length < 2 ∧
    heightScan [Node.term ⟨"v0", false, 0⟩ none] < 1 :=
  ⟨by decide, by decide, by decide, by decide⟩

theorem recordProgram_programs_nodup_le (cfg : BinCfg) (bs : BinState)
    (res : Option (List Node)) (hnd : bs.programs.Nodup)
    (hlen : bs.programs.length ≤ cfg.K) :
    (recordProgram cfg bs res).1.programs.Nodup ∧
      (recordProgram cfg bs res).1.programs.length ≤ cfg.K := by
  cases res with
  | none => exact ⟨hnd, hlen⟩
  | some p =>
    unfold recordProgram
    dsimp only
    split
    · exact ⟨hnd, hlen⟩
    · split
      · next hacc =>
        constructor
        · rw [List.nodup_append]
          refine ⟨hnd, List.nodup_singleton _, ?_⟩
          intro a ha hb
          rw [List.mem_singleton] at hb
          subst hb
          have := List.count_eq_zero.mp hacc.2
          exact this ha
        · simp only [List.length_append, List.length_singleton]
          omega
      · exact ⟨hnd, hlen⟩

theorem recordProgram_full_immutable (cfg : BinCfg) (bs : BinState)
    (res : Option (List Node)) (hfull : bs.programs.length = cfg.K) :
    (recordProgram cfg bs res).1.programs = bs.programs := by
  cases res with
  | none => rfl
  | some p =>
    unfold recordProgram
    dsimp only
    split
    · rfl
    · split
      · next hacc => omega
      · rfl

theorem runBin_foldl_inv (cfg : BinCfg) :
    ∀ (results : List (Option (List Node))) (bs : BinState),
      bs.programs.Nodup → bs.programs.length ≤ cfg.K →
      (results.foldl (fun b r => (recordProgram cfg b r).1) bs).programs.Nodup ∧
        (results.foldl (fun b r => (recordProgram cfg b r).1) bs).programs.length ≤
          cfg.K := by
  intro results
  induction results with
  | nil => intro bs hnd hlen; exact ⟨hnd, hlen⟩
  | cons r rs ih =>
    intro bs hnd hlen
    have := recordProgram_programs_nodup_le cfg bs r hnd hlen
    exact ih _ this.1 this.2

theorem runBin_foldl_frozen (cfg : BinCfg) :
    ∀ (more : List (Option (List Node))) (bs : BinState),
      bs.programs.length = cfg.K →
      (more.foldl (fun b r => (recordProgram cfg b r).1) bs).programs = bs.programs := by
  intro more
  induction more with
  | nil => intro bs _; rfl
  | cons r rs ih =>
    intro bs hfull
    have h1 := recordProgram_full_immutable cfg bs r hfull
    have h2 : ((recordProgram cfg bs r).1).programs.length = cfg.K := by
      rw [h1, hfull]
    rw [List.foldl_cons]
    rw [ih _ h2, h1]

/-- Claim C7: for every size bin and any sequence of generated results, the
accepted canonical-string collection contains no duplicates, never exceeds
the target `num_programs_per_size_bin`, and once it holds exactly that many
entries it stays unchanged under any further results. -/
theorem c7_bin_dedup_quota_frozen (cfg : BinCfg) (results : List (Option (List Node))) :
    (runBin cfg results).programs.Nodup ∧
    (runBin cfg results).programs.length ≤ cfg.K ∧
    ((runBin cfg results).programs.length = cfg.K →
      ∀ more, (runBin cfg (results ++ more)).programs = (runBin cfg results).programs) := by
  have h1 := runBin_foldl_inv cfg results initialBin (by simp [initialBin]) (by simp [initialBin])
  refine ⟨h1.1, h1.2, ?_⟩
  intro hfull more
  unfold runBin
  rw [List.foldl_append]
  exact runBin_foldl_frozen cfg more _ hfull

/-- Witness for C7: feeding the single-terminal program twice to an empty
bin with target `K = 1` yields the singleton collection (the duplicate and
over-quota repeat is discarded), which is duplicate-free, of length `≤ 1`,
and frozen under further results. -/
theorem c7_bin_dedup_quota_frozen_witness :
    (runBin binCfgW [some [Node.term ⟨"v0", false, 0⟩ none],
        some [Node.term ⟨"v0", false, 0⟩ none]]).programs.Nodup ∧
    (runBin binCfgW [some [Node.term ⟨"v0", false, 0⟩ none],
        some [Node.term ⟨"v0", false, 0⟩ none]]).programs.length ≤ binCfgW.K ∧
    ((runBin binCfgW [some [Node.term ⟨"v0", false, 0⟩ none],
        some [Node.term ⟨"v0", false, 0⟩ none]]).programs.length = binCfgW.K →
      ∀ more, (runBin binCfgW ([some [Node.term ⟨"v0", false, 0⟩ none],
          some [Node.term ⟨"v0", false, 0⟩ none]] ++ more)).programs =
        (runBin binCfgW [some [Node.term ⟨"v0", false, 0⟩ none],
          some [Node.term ⟨"v0", false, 0⟩ none]]).programs) :=
  c7_bin_dedup_quota_frozen binCfgW
    [some [Node.term ⟨"v0", false, 0⟩ none], some [Node.term ⟨"v0", false, 0⟩ none]]

/-! ### Determinism: the run depends only on the consumed draw prefix -/

theorem sizeFilter_stream (pset : PSet) (md MD ms MS : Nat) (tr : Trait)
    (s1 s2 : Nat → Nat) (dv : Nat) (stack : List (Nat × Nat)) (depth size : Nat)
    (vf : List Primitive) :
    sizeFilter ⟨pset, md, MD, ms, MS, tr, s2⟩ dv stack depth size vf =
      sizeFilter ⟨pset, md, MD, ms, MS, tr, s1⟩ dv stack depth size vf := rfl

theorem tc_stream_eq (pset : PSet) (md MD ms MS : Nat) (tr : Trait) (s1 s2 : Nat → Nat)
    (dv : Nat) (stack : List (Nat × Nat)) (depth size idx : Nat)
    (h : s1 idx = s2 idx) :
    terminal_condition ⟨pset, md, MD, ms, MS, tr, s2⟩ dv stack depth size idx =
      terminal_condition ⟨pset, md, MD, ms, MS, tr, s1⟩ dv stack depth size idx := by
  unfold terminal_condition
  dsimp only
  rw [← h]

theorem tc_no_consume (pset : PSet) (md MD ms MS : Nat) (tr : Trait) (s1 s2 : Nat → Nat)
    (dv : Nat) (stack : List (Nat × Nat)) (depth size idx : Nat)
    (h : (terminal_condition ⟨pset, md, MD, ms, MS, tr, s1⟩ dv stack depth size idx).2 =
      idx) :
    terminal_condition ⟨pset, md, MD, ms, MS, tr, s2⟩ dv stack depth size idx =
      terminal_condition ⟨pset, md, MD, ms, MS, tr, s1⟩ dv stack depth size idx := by
  by_cases hA : pset.terminals = []
  · rw [tc_grow_no_terminals ⟨pset, md, MD, ms, MS, tr, s2⟩ dv stack depth size idx hA,
      tc_grow_no_terminals ⟨pset, md, MD, ms, MS, tr, s1⟩ dv stack depth size idx hA]
  · unfold terminal_condition at h ⊢
    dsimp only at h ⊢
    rw [if_neg hA] at h
    rw [if_neg hA, if_neg hA]
    generalize hM : (if stack = [] then (size : Int)
      else (size : Int) + stackBudget
        (if List.filter (fun f => decide (size + f.arity ≤ MS)) pset.primitives = [] then 1
          else List.foldr max 0 (List.map Primitive.arity
            (List.filter (fun f => decide (size + f.arity ≤ MS)) pset.primitives)))
        MD stack) = MPS at h ⊢
    split at h
    · next hB => rw [if_pos hB, if_pos hB]
    · next hB =>
      rw [if_neg hB, if_neg hB]
      split at h
      · next hC => simp at h
      · next hC => rw [if_neg hC, if_neg hC]

theorem stepG_nextIdx_ge_tc (c : GenCtx) (tc : TCond) (dv : Nat)
    (prog : List Node) (depth size idx : Nat) (rest : List (Nat × Nat)) :
    (tc c dv rest depth size idx).2 ≤
      nextIdx (stepG c tc dv ⟨prog, (depth, size) :: rest, idx⟩) := by
  simp only [stepG]
  cases hb : (tc c dv rest depth size idx).1
  · rw [if_neg (by decide : ¬ (false = true))]
    simp only [funcStep]
    split
    · simp [nextIdx]
    · simp only [nextIdx]
      omega
  · rw [if_pos rfl]
    simp only [termStep]
    split
    · simp [nextIdx]
    · split
      · split
        · simp only [nextIdx]
          omega
        · simp only [nextIdx]
          omega
      · simp only [nextIdx]
        omega

theorem termStep_agree (pset : PSet) (md MD ms MS : Nat) (tr : Trait)
    (s1 s2 : Nat → Nat) (rest : List (Nat × Nat)) (prog : List Node) (size i1 : Nat)
    (hag : ∀ j, i1 ≤ j →
      j < nextIdx (termStep ⟨pset, md, MD, ms, MS, tr, s1⟩ rest prog size i1) →
      s1 j = s2 j) :
    termStep ⟨pset, md, MD, ms, MS, tr, s2⟩ rest prog size i1 =
      termStep ⟨pset, md, MD, ms, MS, tr, s1⟩ rest prog size i1 := by
  by_cases hts : pset.terminals = []
  · unfold termStep
    dsimp only
    rw [if_pos hts, if_pos hts]
  · have hN : i1 < nextIdx (termStep ⟨pset, md, MD, ms, MS, tr, s1⟩ rest prog size i1) := by
      unfold termStep
      dsimp only
      rw [if_neg hts]
      split
      · split
        · simp only [nextIdx]
          omega
        · simp only [nextIdx]
          omega
      · simp only [nextIdx]
        omega
    have h1 : s1 i1 = s2 i1 := hag i1 (le_refl _) hN
    unfold termStep
    dsimp only
    rw [if_neg hts, if_neg hts, ← h1]
    by_cases heph : (pset.terminals.getD (s1 i1 % pset.terminals.length)
        ⟨"", false, 0⟩).isEphemeral = true
    · rw [if_pos heph, if_pos heph]
      by_cases hpz : (pset.terminals.getD (s1 i1 % pset.terminals.length)
          ⟨"", false, 0⟩).poolSize = 0
      · rw [if_pos hpz, if_pos hpz]
      · rw [if_neg hpz, if_neg hpz]
        have h2 : s1 (i1 + 1) = s2 (i1 + 1) := by
          apply hag (i1 + 1) (by omega)
          unfold termStep
          dsimp only
          rw [if_neg hts, if_pos heph, if_neg hpz]
          simp only [nextIdx]
          omega
        rw [← h2]
    · rw [if_neg heph, if_neg heph]

theorem funcStep_agree (pset : PSet) (md MD ms MS : Nat) (tr : Trait)
    (s1 s2 : Nat → Nat) (dv : Nat) (rest : List (Nat × Nat)) (prog : List Node)
    (depth size i1 : Nat)
    (hag : ∀ j, i1 ≤ j →
      j < nextIdx (funcStep ⟨pset, md, MD, ms, MS, tr, s1⟩ dv rest prog depth size i1) →
      s1 j = s2 j) :
    funcStep ⟨pset, md, MD, ms, MS, tr, s2⟩ dv rest prog depth size i1 =
      funcStep ⟨pset, md, MD, ms, MS, tr, s1⟩ dv rest prog depth size i1 := by
  unfold funcStep at hag ⊢
  dsimp only at hag ⊢
  rw [sizeFilter_stream pset md MD ms MS tr s1 s2 dv rest depth size]
  generalize hV : (if pset.primitives.filter (fun f => size + f.arity ≤ MS) ≠ [] ∧
      tr = Trait.size
    then sizeFilter ⟨pset, md, MD, ms, MS, tr, s1⟩ dv rest depth size
      (pset.primitives.filter (fun f => size + f.arity ≤ MS))
    else pset.primitives.filter (fun f => size + f.arity ≤ MS)) = V at hag ⊢
  cases V with
  | nil => rfl
  | cons g gs =>
    simp only [nextIdx] at hag
    have h1 : s1 i1 = s2 i1 := hag i1 (le_refl _) (by omega)
    rw [h1]

theorem stepG_agree (pset : PSet) (md MD ms MS : Nat) (tr : Trait)
    (s1 s2 : Nat → Nat) (dv : Nat) (st : GenState)
    (hag : ∀ j, st.idx ≤ j →
      j < nextIdx (stepG ⟨pset, md, MD, ms, MS, tr, s1⟩ terminal_condition dv st) →
      s1 j = s2 j) :
    stepG ⟨pset, md, MD, ms, MS, tr, s2⟩ terminal_condition dv st =
      stepG ⟨pset, md, MD, ms, MS, tr, s1⟩ terminal_condition dv st := by
  obtain ⟨prog, stack, idx⟩ := st
  dsimp only at hag
  cases stack with
  | nil => rfl
  | cons e rest =>
    obtain ⟨depth, size⟩ := e
    have hi1 := tc_grow_idx_ge ⟨pset, md, MD, ms, MS, tr, s1⟩ dv rest depth size idx
    have hNtc := stepG_nextIdx_ge_tc ⟨pset, md, MD, ms, MS, tr, s1⟩ terminal_condition
      dv prog depth size idx rest
    have htc : terminal_condition ⟨pset, md, MD, ms, MS, tr, s2⟩ dv rest depth size idx =
        terminal_condition ⟨pset, md, MD, ms, MS, tr, s1⟩ dv rest depth size idx := by
      rcases tc_idx_bounds ⟨pset, md, MD, ms, MS, tr, s1⟩ dv rest depth size idx with h | h
      · exact tc_no_consume pset md MD ms MS tr s1 s2 dv rest depth size idx h
      · exact tc_stream_eq pset md MD ms MS tr s1 s2 dv rest depth size idx
          (hag idx (le_refl _) (by omega))
    simp only [stepG]
    rw [htc]
    have hred : ∀ out, stepG ⟨pset, md, MD, ms, MS, tr, s1⟩ terminal_condition dv
        ⟨prog, (depth, size) :: rest, idx⟩ = out →
        nextIdx out = nextIdx (stepG ⟨pset, md, MD, ms, MS, tr, s1⟩ terminal_condition dv
          ⟨prog, (depth, size) :: rest, idx⟩) := by
      intro out hout
      rw [hout]
    cases hb : (terminal_condition ⟨pset, md, MD, ms, MS, tr, s1⟩ dv rest depth size idx).1
    · rw [if_neg (by decide : ¬ (false = true))]
      apply funcStep_agree
      intro j hj1 hj2
      refine hag j (by omega) ?_
      have : funcStep ⟨pset, md, MD, ms, MS, tr, s1⟩ dv rest prog depth size
          (terminal_condition ⟨pset, md, MD, ms, MS, tr, s1⟩ dv rest depth size idx).2 =
          stepG ⟨pset, md, MD, ms, MS, tr, s1⟩ terminal_condition dv
            ⟨prog, (depth, size) :: rest, idx⟩ := by
        simp only [stepG]
        rw [hb]
        rw [if_neg (by decide : ¬ (false = true))]
      rw [← this]
      exact hj2
    · rw [if_pos rfl]
      apply termStep_agree
      intro j hj1 hj2
      refine hag j (by omega) ?_
      have : termStep ⟨pset, md, MD, ms, MS, tr, s1⟩ rest prog size
          (terminal_condition ⟨pset, md, MD, ms, MS, tr, s1⟩ dv rest depth size idx).2 =
          stepG ⟨pset, md, MD, ms, MS, tr, s1⟩ terminal_condition dv
            ⟨prog, (depth, size) :: rest, idx⟩ := by
        simp only [stepG]
        rw [hb]
        rw [if_pos rfl]
      rw [← this]
      exact hj2

theorem genLoop_nextIdx_le (c : GenCtx) (dv : Nat) :
    ∀ fuel st, nextIdx (stepG c terminal_condition dv st) ≤
      (genLoop c terminal_condition dv fuel st).2 := by
  intro fuel st
  rw [genLoop_eq]
  cases hstep : stepG c terminal_condition dv st with
  | done p i => simp [nextIdx]
  | fail i => simp [nextIdx]
  | err i => simp [nextIdx]
  | cont st' =>
    simp only [nextIdx]
    cases fuel with
    | zero => simp
    | succ fuel => exact genLoop_idx_ge c dv fuel st'

theorem genLoop_agree (pset : PSet) (md MD ms MS : Nat) (tr : Trait)
    (s1 s2 : Nat → Nat) (dv : Nat) :
    ∀ fuel st,
      (∀ j, st.idx ≤ j →
        j < (genLoop ⟨pset, md, MD, ms, MS, tr, s1⟩ terminal_condition dv fuel st).2 →
        s1 j = s2 j) →
      genLoop ⟨pset, md, MD, ms, MS, tr, s2⟩ terminal_condition dv fuel st =
        genLoop ⟨pset, md, MD, ms, MS, tr, s1⟩ terminal_condition dv fuel st := by
  intro fuel
  induction fuel with
  | zero =>
    intro st hag
    rw [genLoop_eq, genLoop_eq]
    have hstep := stepG_agree pset md MD ms MS tr s1 s2 dv st
      (fun j h1 h2 => hag j h1
        (lt_of_lt_of_le h2 (genLoop_nextIdx_le ⟨pset, md, MD, ms, MS, tr, s1⟩ dv 0 st)))
    rw [hstep]
  | succ fuel ih =>
    intro st hag
    rw [genLoop_eq, genLoop_eq]
    have hstep := stepG_agree pset md MD ms MS tr s1 s2 dv st
      (fun j h1 h2 => hag j h1
        (lt_of_lt_of_le h2
          (genLoop_nextIdx_le ⟨pset, md, MD, ms, MS, tr, s1⟩ dv (fuel + 1) st)))
    rw [hstep]
    cases hstep2 : stepG ⟨pset, md, MD, ms, MS, tr, s1⟩ terminal_condition dv st with
    | done p i => rfl
    | fail i => rfl
    | err i => rfl
    | cont st' =>
      have hge : st.idx ≤ st'.idx := by
        have := stepG_nextIdx_ge ⟨pset, md, MD, ms, MS, tr, s1⟩ terminal_condition dv st
          (tc_grow_idx_ge ⟨pset, md, MD, ms, MS, tr, s1⟩ dv)
        rw [hstep2] at this
        simpa [nextIdx] using this
      apply ih st'
      intro j hj1 hj2
      refine hag j (by omega) ?_
      rw [genLoop_eq, hstep2]
      exact hj2

/-- Claim C8: `generate_grow` is deterministic as a function of its inputs
and the pseudo-random stream.  If one run with stream `s1` produces result
`r` having consumed the draws at positions `< n`, then any stream agreeing
with `s1` on those positions produces exactly the same result and consumes
exactly the same draws, so a fixed seed reproduces the corpus exactly. -/
theorem c8_determinism (pset : PSet) (min_depth max_depth min_size max_size : Nat)
    (trait : Trait) (s1 s2 : Nat → Nat) (r : GenResult) (n : Nat)
    (h1 : generate_grow pset min_depth max_depth min_size max_size trait s1 = (r, n))
    (hag : ∀ j, j < n → s1 j = s2 j) :
    generate_grow pset min_depth max_depth min_size max_size trait s2 = (r, n) := by
  unfold generate_grow generate_program_ at h1 ⊢
  cases trait with
  | depth =>
    by_cases hr : min_depth ≤ max_depth
    · simp only [randint, if_pos hr] at h1 ⊢
      have hn1 : 1 ≤ n := by
        have := genLoop_idx_ge
          ⟨pset, min_depth, max_depth, min_size, max_size, Trait.depth, s1⟩
          (min_depth + s1 0 % (max_depth - min_depth + 1)) (max max_size 1 + 1)
          ⟨[], [(0, 1)], 1⟩
        rw [h1] at this
        simpa using this
      have h0 : s1 0 = s2 0 := hag 0 (by omega)
      rw [← h0]
      rw [genLoop_agree pset min_depth max_depth min_size max_size Trait.depth s1 s2
        (min_depth + s1 0 % (max_depth - min_depth + 1)) (max max_size 1 + 1)
        ⟨[], [(0, 1)], 1⟩ ?_]
      · exact h1
      · intro j hj1 hj2
        rw [h1] at hj2
        exact hag j (by simpa using hj2)
    · simp only [randint, if_neg hr] at h1 ⊢
      exact h1
  | size =>
    by_cases hr : min_size ≤ max_size
    · simp only [randint, if_pos hr] at h1 ⊢
      have hn1 : 1 ≤ n := by
        have := genLoop_idx_ge
          ⟨pset, min_depth, max_depth, min_size, max_size, Trait.size, s1⟩
          (min_size + s1 0 % (max_size - min_size + 1)) (max max_size 1 + 1)
          ⟨[], [(0, 1)], 1⟩
        rw [h1] at this
        simpa using this
      have h0 : s1 0 = s2 0 := hag 0 (by omega)
      rw [← h0]
      rw [genLoop_agree pset min_depth max_depth min_size max_size Trait.size s1 s2
        (min_size + s1 0 % (max_size - min_size + 1)) (max max_size 1 + 1)
        ⟨[], [(0, 1)], 1⟩ ?_]
      · exact h1
      · intro j hj1 hj2
        rw [h1] at hj2
        exact hag j (by simpa using hj2)
    · simp only [randint, if_neg hr] at h1 ⊢
      exact h1

/-- Witness for C8: the run of `{v0, add}` under the all-zero stream
consumes two draws and returns the single-terminal program; a stream that
agrees with it only on positions `0` and `1` reproduces the identical
result and draw count. -/
theorem c8_determinism_witness :
    generate_grow psetW 0 2 1 3 Trait.size streamZ2 =
      (GenResult.ok [Node.term ⟨"v0", false, 0⟩ none], 2) :=
  c8_determinism psetW 0 2 1 3 Trait.size streamZ streamZ2
    (GenResult.ok [Node.term ⟨"v0", false, 0⟩ none]) 2 (by decide)
    (fun j hj => by
      unfold streamZ streamZ2
      rw [if_pos hj])

end GPProfile
